import Mathlib

/-!
Verification model of the prioq library (src/prioq/base.py, src/prioq/utils.py,
src/prioq/reversing.py).

The queue stores wrapped items in a Python list managed by the heapq module.
For a fixed configuration (key, reverse) the wrapping `value -> item` used in
base.py is a bijection:
  - key = None, reverse = False : the item is the value itself,
    item order is the value order;
  - key = None, reverse = True  : SimpleReverser(value),
    SimpleReverser.lt a b  iff  a.item > b.item (reversing.py);
  - key = f,    reverse = False : the tuple (f(value), value) (_to_item),
    tuple order is the lexicographic order;
  - key = f,    reverse = True  : ComplexReverser((f(value), value)),
    ComplexReverser.lt a b  iff  a.item > b.item lexicographically.
In every configuration item equality coincides with value equality and the
item is recovered from the value by a fixed injection, so we represent the
backing list by the list of stored values and the item comparison by the
derived comparison itemLt below.  All queue operations are parameterised by
that comparison exactly as the heapq functions are parameterised by the
item __lt__.

The heap engine is CPython's heapq module (heappush / heappop / heapify with
_siftdown and _siftup), which is not part of this repository's sources; it is
transcribed here operation by operation from its documented algorithm
(append + sift up; swap with last + sift down to a leaf + sift up the moved
item; bottom-up heapify), matching spec section 4.2.  The loops are written
with an explicit fuel argument that strictly dominates the number of
iterations of the Python while loops, so the definitions are structural and
executable.
-/

set_option maxHeartbeats 1600000

namespace Prioq

/-! ### Total list indexing -/

/-- Total indexing into a list, `heap[i]` in the Python code (all accesses in
heapq are in bounds; out-of-range reads return a default and never occur in
the verified runs). -/
def nth {α : Type} [Inhabited α] (l : List α) (i : Nat) : α := (l[i]?).getD default

/-! ### The heapq engine (CPython heapq, transcribed) -/

section HeapEngine

variable {α : Type} [Inhabited α]

/-- heapq._siftdown(heap, startpos, pos): bubble the entry `ni` (read from
heap[pos] by the caller) towards the root, moving greater parents down, not
moving above position s.  One fuel unit per loop iteration; the position
strictly decreases, so fuel `pos` suffices. -/
def siftdownAux (lt : α → α → Bool) (s : Nat) (ni : α) : Nat → List α → Nat → List α
  | 0, h, pos => h.set pos ni
  | fuel + 1, h, pos =>
    if s < pos then
      let pp := (pos - 1) / 2
      let parent := nth h pp
      if lt ni parent then siftdownAux lt s ni fuel (h.set pos parent) pp
      else h.set pos ni
    else h.set pos ni

/-- heapq._siftup's descent loop: walk from pos to a leaf, moving the smaller
child up at each step.  Returns the final heap and leaf position.  The
position at least doubles each iteration so fuel `endpos` suffices. -/
def siftupLoop (lt : α → α → Bool) (endpos : Nat) : Nat → List α → Nat → List α × Nat
  | 0, h, pos => (h, pos)
  | fuel + 1, h, pos =>
    if 2 * pos + 1 < endpos then
      let c0 := 2 * pos + 1
      let mc := if 2 * pos + 2 < endpos && !(lt (nth h c0) (nth h (2 * pos + 2)))
                then 2 * pos + 2 else c0
      siftupLoop lt endpos fuel (h.set pos (nth h mc)) mc
    else (h, pos)

/-- heapq._siftup(heap, pos): read newitem = heap[pos], walk the hole down to
a leaf along smaller children, write newitem there, then _siftdown it with
startpos = pos. -/
def siftup (lt : α → α → Bool) (h : List α) (pos : Nat) : List α :=
  let ni := nth h pos
  let r := siftupLoop lt h.length h.length h pos
  siftdownAux lt pos ni r.2 (r.1.set r.2 ni) r.2

/-- heapq.heappush(heap, item): append then _siftdown(heap, 0, len(heap)-1). -/
def heappush (lt : α → α → Bool) (h : List α) (x : α) : List α :=
  siftdownAux lt 0 x h.length (h ++ [x]) h.length

/-- heapq.heappop(heap): pop the last element (IndexError on an empty list,
before any mutation); if the heap is still non-empty, remember heap[0], move
the last element to the root and _siftup(heap, 0). -/
def heappop (lt : α → α → Bool) (h : List α) : Option (α × List α) :=
  match h with
  | [] => none
  | _ :: _ =>
    let rest := h.dropLast
    if rest.isEmpty then some (nth h 0, [])
    else some (nth rest 0, siftup lt (rest.set 0 (nth h (h.length - 1))) 0)

/-- The loop of heapq.heapify: _siftup at i = n/2 - 1, ..., 1, 0. -/
def heapifyLoop (lt : α → α → Bool) : List α → Nat → List α
  | h, 0 => h
  | h, i + 1 => heapifyLoop lt (siftup lt h i) i

/-- heapq.heapify(x): bottom-up sift of every internal node. -/
def heapify (lt : α → α → Bool) (h : List α) : List α := heapifyLoop lt h (h.length / 2)

/-- The binary-heap invariant of heapq: no child is smaller than its parent
(spec section 3: items[i] le items[2i+1] and items[i] le items[2i+2]). -/
def IsHeap (lt : α → α → Bool) (l : List α) : Prop :=
  ∀ c, 0 < c → c < l.length → lt (nth l c) (nth l ((c - 1) / 2)) = false

/-- Subtree membership in the implicit binary tree: inSubF-with-fuel; fuel j
suffices since the parent index strictly decreases. -/
def inSubF (i : Nat) : Nat → Nat → Bool
  | 0, j => i == j
  | fuel + 1, j => if j < i then false else if j = i then true else inSubF i fuel ((j - 1) / 2)

/-- j lies in the subtree rooted at i of the implicit binary tree. -/
def inSub (i j : Nat) : Bool := inSubF i j j

/-- The comparisons the heapq engine relies on: __lt__ is a strict total
order on the stored items (spec section 4.1: a strict weak ordering; for the
derived comparisons on values used here the order is total with no ties). -/
structure IsSTO {β : Type} (lt : β → β → Bool) : Prop where
  asymm : ∀ a b, lt a b = true → lt b a = false
  trans : ∀ a b c, lt a b = true → lt b c = true → lt a c = true
  total : ∀ a b, a ≠ b → lt a b = true ∨ lt b a = true

end HeapEngine

/-! ### The ordering adapter (base.py reverse_key / _to_item, reversing.py) -/

/-- Python tuple comparison on (key, value) pairs of integers. -/
def lexLt (a b : Int × Int) : Bool :=
  decide (a.1 < b.1) || (a.1 == b.1 && decide (a.2 < b.2))

/-- The derived comparison on stored values for a (key, reverse)
configuration; see the module docstring for the case-by-case source mapping
onto the raw value, (key, value) tuple, SimpleReverser and ComplexReverser
representations. -/
def itemLt (key : Option (Int → Int)) (rev : Bool) (a b : Int) : Bool :=
  match key with
  | none => if rev then decide (b < a) else decide (a < b)
  | some f => if rev then lexLt (f b, b) (f a, a) else lexLt (f a, a) (f b, b)

/-- The priority key of a value: the value itself when key is None, else
key(value). -/
def priKey (key : Option (Int → Int)) (v : Int) : Int :=
  match key with
  | none => v
  | some f => f v

/-- Comparison of priority keys alone, in the direction selected by reverse:
used to state minimality ("priority key not greater than", spec section 8). -/
def keyLt (key : Option (Int → Int)) (rev : Bool) (a b : Int) : Bool :=
  if rev then decide (priKey key b < priKey key a) else decide (priKey key a < priKey key b)

/-! ### Python error values (spec section 7) -/

/-- The exception values appearing in base.py: KeyError (raised bare by
peek/pop, with the value by remove), IndexError (from heap[0] / list.pop on
an empty list) and ValueError (from list.remove of an absent element). -/
inductive PyError where
  | keyError (arg : Option Int)
  | indexError
  | valueError
deriving DecidableEq

/-- Whether an exception value is of type KeyError. -/
def PyError.isKeyError : PyError → Bool
  | .keyError _ => true
  | _ => false

/-! ### The PriorityQueue facade (base.py) -/

/-- PriorityQueue state: _key, _reverse and the backing list _items,
represented by the stored values (see the module docstring). -/
structure PQ where
  key : Option (Int → Int)
  reverse : Bool
  items : List Int

/-- The item comparison of a queue. -/
def PQ.olt (q : PQ) : Int → Int → Bool := itemLt q.key q.reverse

/-- PriorityQueue.__init__(*values, key=key, reverse=reverse): wrap every
value and heapify. -/
def mkQueue (key : Option (Int → Int)) (rev : Bool) (vals : List Int) : PQ :=
  ⟨key, rev, heapify (itemLt key rev) vals⟩

/-- PriorityQueue.add(value): heappush of the wrapped value. -/
def PQ.add (q : PQ) (v : Int) : PQ :=
  { q with items := heappush q.olt q.items v }

/-- PriorityQueue.clear(): self._items.clear(). -/
def PQ.clear (q : PQ) : PQ := { q with items := [] }

/-- self._items[0], raising IndexError on an empty list. -/
def headE (l : List Int) : Except PyError Int :=
  match l with
  | [] => .error .indexError
  | x :: _ => .ok x

/-- PriorityQueue.peek(): return item_to_value(items[0]); an IndexError is
caught and a bare KeyError raised instead.  peek assigns nothing, so it has
no state component. -/
def PQ.peekE (q : PQ) : Except PyError Int :=
  match headE q.items with
  | .error .indexError => .error (.keyError none)
  | .error e => .error e
  | .ok v => .ok v

/-- heapq.heappop with the IndexError it raises on an empty list. -/
def heappopE {α : Type} [Inhabited α] (lt : α → α → Bool) (h : List α) :
    Except PyError (α × List α) :=
  match heappop lt h with
  | none => .error .indexError
  | some r => .ok r

/-- PriorityQueue.pop(): heappop, catching IndexError and raising a bare
KeyError.  On the error path nothing has been assigned (list.pop on the
empty list raises before mutating), so the state is returned unchanged. -/
def PQ.popSt (q : PQ) : Except PyError Int × PQ :=
  match heappopE q.olt q.items with
  | .error .indexError => (.error (.keyError none), q)
  | .error e => (.error e, q)
  | .ok (v, l) => (.ok v, { q with items := l })

/-- list.remove(item): remove the first equal element, ValueError if none
(item equality is value equality for every wrapper, see the module
docstring). -/
def listRemoveE (l : List Int) (v : Int) : Except PyError (List Int) :=
  match l with
  | [] => .error .valueError
  | x :: xs =>
    if x = v then .ok xs
    else
      match listRemoveE xs v with
      | .error e => .error e
      | .ok ys => .ok (x :: ys)

/-- PriorityQueue.remove(value): try list.remove; on ValueError raise
KeyError(value) (the list is untouched in that case), else heapify. -/
def PQ.removeSt (q : PQ) (v : Int) : Except PyError Unit × PQ :=
  match listRemoveE q.items v with
  | .error .valueError => (.error (.keyError (some v)), q)
  | .error e => (.error e, q)
  | .ok l => (.ok (), { q with items := heapify q.olt l })

/-- PriorityQueue.discard(value): try remove, catching KeyError (the only
exception remove raises); the state is whatever remove left. -/
def PQ.discard (q : PQ) (v : Int) : PQ :=
  match q.removeSt v with
  | (.error (.keyError _), q2) => q2
  | (_, q2) => q2

/-- The mutating queue calls of spec section 8 (heap invariant property). -/
inductive Op where
  | add (v : Int)
  | remove (v : Int)
  | discard (v : Int)
  | pop
  | clear

/-- Apply one call; a call that raises leaves the state as the method left
it (remove and pop mutate nothing on their error paths). -/
def PQ.applyOp (q : PQ) : Op → PQ
  | .add v => q.add v
  | .remove v => (q.removeSt v).2
  | .discard v => q.discard v
  | .pop => (q.popSt).2
  | .clear => q.clear

/-- Run a sequence of calls. -/
def PQ.runOps (q : PQ) (ops : List Op) : PQ := ops.foldl PQ.applyOp q

/-! ### Sorted iteration (PriorityQueue.__iter__ / __reversed__) -/

/-- Python's list.sort restricted to the comparisons used here: a stable
insertion placing each element after earlier elements that are not greater
(the item orders have no ties between distinct values, so the sorted result
is the unique ltb-ascending permutation). -/
def stableInsert (ltb : Int → Int → Bool) (x : Int) : List Int → List Int
  | [] => [x]
  | y :: ys => if ltb y x then y :: stableInsert ltb x ys else x :: y :: ys

/-- sorted(items): insertion sort by the item comparison. -/
def stableSortBy (ltb : Int → Int → Bool) : List Int → List Int
  | [] => []
  | x :: xs => stableInsert ltb x (stableSortBy ltb xs)

/-- list(self): __iter__ sorts the items by the item order and yields the
values. -/
def sortedVals (q : PQ) : List Int := stableSortBy q.olt q.items

/-! ### Subset test (PriorityQueue.__le__) -/

/-- Python `value in iterator`: consume elements up to and including the
first one equal to value; None when the iterator is exhausted first. -/
def dropUntil (x : Int) : List Int → Option (List Int)
  | [] => none
  | y :: ys => if y = x then some ys else dropUntil x ys

/-- all(value in other_values for value in values) where other_values is a
single iterator consumed across the membership tests (base.py __le__). -/
def consumeAll : List Int → List Int → Bool
  | [], _ => true
  | x :: xs, ys =>
    match dropUntil x ys with
    | none => false
    | some rest => consumeAll xs rest

/-- PriorityQueue.__le__: False if len(self) > len(other), else the
consuming membership scan of both sorted iterations.  (The `self is other`
short-circuit is omitted: for identical states the scan below returns True
as well.) -/
def PQ.le (A B : PQ) : Bool :=
  if B.items.length < A.items.length then false
  else consumeAll (sortedVals A) (sortedVals B)

/-! ### Merge scans (utils.py intersect_sorted / subtract_sorted) -/

/-- intersect_sorted, key is None branch: operator = gt if reverse else lt,
compare the values themselves; on a tie yield the left value and advance
both sides; stop when either side is exhausted.  The loop consumes at least
one element per iteration, so fuel equal to the total length suffices. -/
def intersectNoneF (rev : Bool) : Nat → List Int → List Int → List Int
  | 0, _, _ => []
  | fuel + 1, xs, ys =>
    match xs, ys with
    | [], _ => []
    | _ :: _, [] => []
    | a :: xs2, b :: ys2 =>
      if (if rev then decide (b < a) else decide (a < b)) then
        intersectNoneF rev fuel xs2 (b :: ys2)
      else if (if rev then decide (a < b) else decide (b < a)) then
        intersectNoneF rev fuel (a :: xs2) ys2
      else a :: intersectNoneF rev fuel xs2 ys2

def intersectNone (rev : Bool) (xs ys : List Int) : List Int :=
  intersectNoneF rev (xs.length + ys.length) xs ys

/-- intersect_sorted, key given: compare the keys of both sides only; on a
key tie yield the left value and advance both sides. -/
def intersectKeyF (f : Int → Int) (rev : Bool) : Nat → List Int → List Int → List Int
  | 0, _, _ => []
  | fuel + 1, xs, ys =>
    match xs, ys with
    | [], _ => []
    | _ :: _, [] => []
    | a :: xs2, b :: ys2 =>
      if (if rev then decide (f b < f a) else decide (f a < f b)) then
        intersectKeyF f rev fuel xs2 (b :: ys2)
      else if (if rev then decide (f a < f b) else decide (f b < f a)) then
        intersectKeyF f rev fuel (a :: xs2) ys2
      else a :: intersectKeyF f rev fuel xs2 ys2

def intersectKey (f : Int → Int) (rev : Bool) (xs ys : List Int) : List Int :=
  intersectKeyF f rev (xs.length + ys.length) xs ys

/-- subtract_sorted, key is None branch: yield left values smaller than the
right head, drop matched pairs, yield the whole left remainder once the
right side is exhausted. -/
def subtractNoneF (rev : Bool) : Nat → List Int → List Int → List Int
  | 0, l, _ => l
  | fuel + 1, xs, ys =>
    match xs, ys with
    | [], _ => []
    | l, [] => l
    | a :: xs2, b :: ys2 =>
      if (if rev then decide (b < a) else decide (a < b)) then
        a :: subtractNoneF rev fuel xs2 (b :: ys2)
      else if (if rev then decide (a < b) else decide (b < a)) then
        subtractNoneF rev fuel (a :: xs2) ys2
      else subtractNoneF rev fuel xs2 ys2

def subtractNone (rev : Bool) (xs ys : List Int) : List Int :=
  subtractNoneF rev (xs.length + ys.length) xs ys

/-- subtract_sorted, key given: the same scan comparing keys only. -/
def subtractKeyF (f : Int → Int) (rev : Bool) : Nat → List Int → List Int → List Int
  | 0, l, _ => l
  | fuel + 1, xs, ys =>
    match xs, ys with
    | [], _ => []
    | l, [] => l
    | a :: xs2, b :: ys2 =>
      if (if rev then decide (f b < f a) else decide (f a < f b)) then
        a :: subtractKeyF f rev fuel xs2 (b :: ys2)
      else if (if rev then decide (f a < f b) else decide (f b < f a)) then
        subtractKeyF f rev fuel (a :: xs2) ys2
      else subtractKeyF f rev fuel xs2 ys2

def subtractKey (f : Int → Int) (rev : Bool) (xs ys : List Int) : List Int :=
  subtractKeyF f rev (xs.length + ys.length) xs ys

/-! ### Set-algebra operators (base.py) -/

/-- sorted(values, key=self._key, reverse=self._reverse): Python sorted
compares the extracted keys only (stable; ties keep input order). -/
def pySortKeyed (key : Option (Int → Int)) (rev : Bool) (l : List Int) : List Int :=
  stableSortBy (keyLt key rev) l

/-- The other operand's values arranged in self's order, as computed by
__and__ and __sub__: when the key functions are the identical object
(sameKey, the Python `self._key is other._key` test, passed as an oracle
since object identity is not a function of the mathematical values), reuse
the other queue's sorted iteration, reversing it when the reverse flags
differ; otherwise re-sort the other's values by self's key and reverse. -/
def otherSorted (sameKey : Bool) (A B : PQ) : List Int :=
  if sameKey then
    (if A.reverse == B.reverse then sortedVals B else (sortedVals B).reverse)
  else pySortKeyed A.key A.reverse B.items

/-- PriorityQueue.__and__: intersect the two sorted value sequences and
build a new queue with self's key and reverse. -/
def PQ.and_ (sameKey : Bool) (A B : PQ) : PQ :=
  let inter :=
    match A.key with
    | none => intersectNone A.reverse (sortedVals A) (otherSorted sameKey A B)
    | some f => intersectKey f A.reverse (sortedVals A) (otherSorted sameKey A B)
  mkQueue A.key A.reverse inter

/-- PriorityQueue.__or__: a new queue from the concatenated value lists with
self's key and reverse. -/
def PQ.or_ (A B : PQ) : PQ :=
  mkQueue A.key A.reverse (A.items ++ B.items)

/-- PriorityQueue.__sub__: subtract the sorted sequences, new queue with
self's key and reverse. -/
def PQ.sub_ (sameKey : Bool) (A B : PQ) : PQ :=
  let diff :=
    match A.key with
    | none => subtractNone A.reverse (sortedVals A) (otherSorted sameKey A B)
    | some f => subtractKey f A.reverse (sortedVals A) (otherSorted sameKey A B)
  mkQueue A.key A.reverse diff

/-- PriorityQueue.__xor__: `if not self: return other; elif not other:
return self` (the operand object itself), else (self - other) | (other -
self). -/
def PQ.xor_ (sameKey : Bool) (A B : PQ) : PQ :=
  if A.items.isEmpty then B
  else if B.items.isEmpty then A
  else PQ.or_ (PQ.sub_ sameKey A B) (PQ.sub_ sameKey B A)

/-! ### Object-identity model for the in-place operators (base.py __ixor__)

Python queues hold a reference to their backing list; `self._items =
(self ^ other)._items` rebinds self's reference to the result's list
object.  A store maps list references (indices) to list contents. -/

/-- A queue object whose _items field is a reference into the store. -/
structure QRef where
  key : Option (Int → Int)
  reverse : Bool
  ref : Nat

/-- Dereference a backing list. -/
def storeGet (w : List (List Int)) (r : Nat) : List Int := (w[r]?).getD []

/-- The queue value (configuration and current contents) of a reference. -/
def qrefPQ (w : List (List Int)) (A : QRef) : PQ := ⟨A.key, A.reverse, storeGet w A.ref⟩

/-- __xor__ at the store level: with an empty left operand it returns the
right operand object (so the result's _items IS other's list); with an
empty right operand it returns self; otherwise it allocates a fresh list
for (self - other) | (other - self).  Returns the reference of the result's
backing list. -/
def pyXorRef (sameKey : Bool) (w : List (List Int)) (A B : QRef) : Nat × List (List Int) :=
  if (storeGet w A.ref).isEmpty then (B.ref, w)
  else if (storeGet w B.ref).isEmpty then (A.ref, w)
  else
    (w.length,
     w ++ [(PQ.or_ (PQ.sub_ sameKey (qrefPQ w A) (qrefPQ w B))
                   (PQ.sub_ sameKey (qrefPQ w B) (qrefPQ w A))).items])

/-- __ixor__: self._items = (self ^ other)._items — rebind self's reference
to the result's list. -/
def pyIXorStore (sameKey : Bool) (w : List (List Int)) (A B : QRef) :
    QRef × List (List Int) :=
  let r := pyXorRef sameKey w A B
  ({ A with ref := r.1 }, r.2)

/-- add(value) at the store level: heappush mutates the referenced list in
place. -/
def pyAddStore (w : List (List Int)) (A : QRef) (v : Int) : List (List Int) :=
  w.set A.ref (heappush (itemLt A.key A.reverse) (storeGet w A.ref) v)

/-! ### Heterogeneous values and fallible comparison (for push safety)

Python values of different types (here: int and str) support == (False
across types) but raise TypeError on <.  With a key function, the stored
item is the tuple (key(value), value); Python tuple comparison tests the
components for equality first and applies < to the first differing
component, so tying keys expose the raw values to <. -/

/-- A Python value: an int or a str. -/
inductive PyVal where
  | intv (n : Int)
  | strv (s : String)
deriving DecidableEq

instance : Inhabited PyVal := ⟨.intv 0⟩

/-- Comparison failure. -/
inductive CmpErr where
  | typeError
deriving DecidableEq

/-- Python ==: equality inside a type, False across types (no error). -/
def pyValEq : PyVal → PyVal → Bool
  | .intv a, .intv b => a == b
  | .strv a, .strv b => a == b
  | _, _ => false

/-- Python < on values: defined inside a type, TypeError across types. -/
def pyValLt : PyVal → PyVal → Except CmpErr Bool
  | .intv a, .intv b => .ok (decide (a < b))
  | .strv a, .strv b => .ok (decide (a < b))
  | _, _ => .error .typeError

/-- Python tuple < on (key(value), value) items: keys (ints) are compared
first; only when they are equal and the values differ is < applied to the
raw values. -/
def itemLtE (a b : Int × PyVal) : Except CmpErr Bool :=
  if a.1 = b.1 then (if pyValEq a.2 b.2 then .ok false else pyValLt a.2 b.2)
  else .ok (decide (a.1 < b.1))

/-- heapq._siftdown with the fallible item comparison. -/
def siftdownAuxE (s : Nat) (ni : Int × PyVal) :
    Nat → List (Int × PyVal) → Nat → Except CmpErr (List (Int × PyVal))
  | 0, h, pos => .ok (h.set pos ni)
  | fuel + 1, h, pos =>
    if s < pos then
      let pp := (pos - 1) / 2
      let parent := nth h pp
      match itemLtE ni parent with
      | .error e => .error e
      | .ok true => siftdownAuxE s ni fuel (h.set pos parent) pp
      | .ok false => .ok (h.set pos ni)
    else .ok (h.set pos ni)

/-- heapq.heappush with the fallible item comparison. -/
def heappushE (h : List (Int × PyVal)) (x : Int × PyVal) :
    Except CmpErr (List (Int × PyVal)) :=
  siftdownAuxE 0 x h.length (h ++ [x]) h.length

/-- PriorityQueue.add for a keyed queue over heterogeneous values:
heappush of the item (key(value), value) (_to_item in base.py). -/
def addE (key : PyVal → Int) (items : List (Int × PyVal)) (v : PyVal) :
    Except CmpErr (List (Int × PyVal)) :=
  heappushE items (key v, v)

end Prioq

namespace Prioq

/-! ### List infrastructure lemmas -/

theorem nth_cons_zero {α : Type} [Inhabited α] (x : α) (l : List α) : nth (x :: l) 0 = x := by
  simp [nth]

theorem nth_cons_succ {α : Type} [Inhabited α] (x : α) (l : List α) (i : Nat) :
    nth (x :: l) (i + 1) = nth l i := by
  simp [nth]

theorem nth_set_eq {α : Type} [Inhabited α] (l : List α) (i : Nat) (a : α)
    (h : i < l.length) : nth (l.set i a) i = a := by
  induction l generalizing i with
  | nil => simp at h
  | cons x xs ih =>
    cases i with
    | zero => simp [nth]
    | succ j =>
      simp only [List.set_cons_succ, nth_cons_succ]
      exact ih j (by simpa using h)

theorem nth_set_ne {α : Type} [Inhabited α] (l : List α) (i j : Nat) (a : α)
    (h : i ≠ j) : nth (l.set i a) j = nth l j := by
  induction l generalizing i j with
  | nil => simp [List.set]
  | cons x xs ih =>
    cases i with
    | zero =>
      cases j with
      | zero => exact absurd rfl h
      | succ k => simp [nth_cons_succ]
    | succ i0 =>
      cases j with
      | zero => simp [nth]
      | succ k =>
        simp only [List.set_cons_succ, nth_cons_succ]
        exact ih i0 k (by omega)

theorem set_nth_self {α : Type} [Inhabited α] (l : List α) (i : Nat) :
    l.set i (nth l i) = l := by
  induction l generalizing i with
  | nil => rfl
  | cons x xs ih =>
    cases i with
    | zero => simp [nth_cons_zero]
    | succ j => simp only [List.set_cons_succ, nth_cons_succ]; rw [ih]

theorem nth_append_left {α : Type} [Inhabited α] (l1 l2 : List α) (i : Nat)
    (h : i < l1.length) : nth (l1 ++ l2) i = nth l1 i := by
  induction l1 generalizing i with
  | nil => simp at h
  | cons x xs ih =>
    cases i with
    | zero => simp [nth]
    | succ j =>
      simp only [List.cons_append, nth_cons_succ]
      exact ih j (by simpa using h)

theorem nth_append_len {α : Type} [Inhabited α] (l : List α) (x : α) :
    nth (l ++ [x]) l.length = x := by
  induction l with
  | nil => rfl
  | cons y ys ih => simpa [nth_cons_succ] using ih

theorem count_set {α : Type} [Inhabited α] [DecidableEq α] (l : List α) (i : Nat) (a x : α)
    (h : i < l.length) :
    List.count x (l.set i a) + (if nth l i = x then 1 else 0)
      = List.count x l + (if a = x then 1 else 0) := by
  induction l generalizing i with
  | nil => simp at h
  | cons y ys ih =>
    cases i with
    | zero =>
      simp only [List.set_cons_zero, nth_cons_zero, List.count_cons]
      by_cases hy : y = x <;> by_cases ha : a = x <;> simp [hy, ha, beq_iff_eq]
    | succ j =>
      have hj : j < ys.length := by simpa using h
      have := ih j hj
      simp only [List.set_cons_succ, nth_cons_succ, List.count_cons]
      by_cases hy : y = x <;> simp [hy, beq_iff_eq] <;> omega

theorem count_pos_of_nth {α : Type} [Inhabited α] [DecidableEq α] (l : List α) (i : Nat)
    (h : i < l.length) : 0 < List.count (nth l i) l := by
  induction l generalizing i with
  | nil => simp at h
  | cons y ys ih =>
    cases i with
    | zero => simp [nth_cons_zero, List.count_cons]
    | succ j =>
      have hj : j < ys.length := by simpa using h
      have := ih j hj
      simp only [nth_cons_succ, List.count_cons]
      omega

theorem exists_nth_of_mem {α : Type} [Inhabited α] (l : List α) (x : α)
    (h : x ∈ l) : ∃ i, i < l.length ∧ nth l i = x := by
  induction l with
  | nil => simp at h
  | cons y ys ih =>
    rcases List.mem_cons.mp h with h2 | h2
    · exact ⟨0, by simp, by rw [nth_cons_zero, h2]⟩
    · obtain ⟨i, hi, hx⟩ := ih h2
      exact ⟨i + 1, by simpa using hi, by simpa [nth_cons_succ] using hx⟩

theorem mem_of_nth {α : Type} [Inhabited α] (l : List α) (i : Nat)
    (h : i < l.length) : nth l i ∈ l := by
  induction l generalizing i with
  | nil => simp at h
  | cons y ys ih =>
    cases i with
    | zero => simp [nth_cons_zero]
    | succ j =>
      have hj : j < ys.length := by simpa using h
      simpa [nth_cons_succ] using List.mem_cons_of_mem y (ih j hj)

theorem nth_dropLast {α : Type} [Inhabited α] (l : List α) (i : Nat)
    (h : i + 1 < l.length) : nth l.dropLast i = nth l i := by
  induction l generalizing i with
  | nil => simp at h
  | cons y ys ih =>
    cases ys with
    | nil => simp at h
    | cons z zs =>
      cases i with
      | zero => simp [List.dropLast, nth_cons_zero]
      | succ j =>
        have hj : j + 1 < (z :: zs).length := by simpa using h
        simpa [List.dropLast, nth_cons_succ] using ih j hj

theorem count_eq_count_of_perm_counts {α : Type} [DecidableEq α] (l1 l2 : List α)
    (h : ∀ x, List.count x l1 = List.count x l2) : (l1 : Multiset α) = (l2 : Multiset α) := by
  apply Quot.sound
  exact (List.perm_iff_count).2 h

/-! ### Strict-total-order consequences -/

theorem IsSTO.irrefl {β : Type} {lt : β → β → Bool} (h : IsSTO lt) (a : β) :
    lt a a = false := by
  cases hb : lt a a with
  | false => rfl
  | true =>
    have h2 := h.asymm a a hb
    rw [h2] at hb
    exact hb.symm

theorem IsSTO.le_trans {β : Type} {lt : β → β → Bool} (h : IsSTO lt) {a b c : β}
    (hab : lt b a = false) (hbc : lt c b = false) : lt c a = false := by
  cases hca : lt c a with
  | false => rfl
  | true =>
    by_cases hab' : a = b
    · subst hab'; rw [hca] at hbc; exact hbc
    · rcases h.total a b hab' with hl | hl
      · have := h.trans c a b hca hl; rw [this] at hbc; exact hbc
      · rw [hl] at hab; exact hab
  
theorem IsSTO.lt_le_trans {β : Type} {lt : β → β → Bool} (h : IsSTO lt) {a b c : β}
    (hab : lt a b = true) (hbc : lt c b = false) : lt c a = false := by
  cases hca : lt c a with
  | false => rfl
  | true => rw [h.trans c a b hca hab] at hbc; exact hbc

theorem IsSTO.eq_of_not_lt {β : Type} {lt : β → β → Bool} (h : IsSTO lt) {a b : β}
    (hab : lt a b = false) (hba : lt b a = false) : a = b := by
  by_contra hne
  rcases h.total a b hne with hl | hl
  · rw [hl] at hab; exact Bool.noConfusion hab
  · rw [hl] at hba; exact Bool.noConfusion hba

/-! ### Subtree lemmas -/

theorem inSubF_fuel (i : Nat) : ∀ j f1 f2, j ≤ f1 → j ≤ f2 → inSubF i f1 j = inSubF i f2 j := by
  intro j
  induction j using Nat.strong_induction_on with
  | _ j ih =>
    intro f1 f2 h1 h2
    cases j with
    | zero =>
      have unf : ∀ f, inSubF i f 0 = (i == 0) := by
        intro f
        cases f with
        | zero => rfl
        | succ n =>
          simp only [inSubF]
          by_cases hi : 0 < i
          · rw [if_pos hi]
            cases i with
            | zero => omega
            | succ m => simp
          · have : i = 0 := by omega
            subst this
            simp
      rw [unf, unf]
    | succ m =>
      cases f1 with
      | zero => omega
      | succ n1 =>
        cases f2 with
        | zero => omega
        | succ n2 =>
          simp only [inSubF]
          by_cases hlt : m + 1 < i
      

          · simp [hlt]
          · by_cases heq : m + 1 = i
            · simp [hlt, heq]
            · simp only [if_neg hlt, if_neg heq]
              exact ih (m / 2) (by omega) n1 n2 (by omega) (by omega)

theorem inSub_unfold (i j : Nat) :
    inSub i j = if j < i then false else if j = i then true else inSub i ((j - 1) / 2) := by
  show inSubF i j j = _
  cases j with
  | zero =>
    by_cases hi : 0 < i
    · rw [if_pos hi]
      show (i == 0) = false
      cases i with
      | zero => omega
      | succ m => simp
    · have : i = 0 := by omega
      subst this
      simp [inSubF]
  | succ m =>
    simp only [inSubF]
    by_cases hlt : m + 1 < i
    · simp [hlt]
    · by_cases heq : m + 1 = i
      · simp [hlt, heq]
      · simp only [if_neg hlt, if_neg heq]
        exact inSubF_fuel i (m / 2) m ((m + 1 - 1) / 2) (by omega) (by omega)

theorem inSub_self (i : Nat) : inSub i i = true := by
  rw [inSub_unfold]
  simp

theorem inSub_of_lt (i j : Nat) (h : j < i) : inSub i j = false := by
  rw [inSub_unfold, if_pos h]

theorem inSub_ge {i j : Nat} (h : inSub i j = true) : i ≤ j := by
  by_contra hc
  rw [inSub_of_lt i j (by omega)] at h
  exact Bool.noConfusion h

theorem inSub_step {i j : Nat} (h : i < j) : inSub i j = inSub i ((j - 1) / 2) := by
  rw [inSub_unfold, if_neg (by omega), if_neg (by omega)]

theorem inSub_parent {i j : Nat} (h : inSub i j = true) (hne : j ≠ i) :
    inSub i ((j - 1) / 2) = true := by
  have hij : i < j := by
    have := inSub_ge h
    omega
  rw [← inSub_step hij]
  exact h

theorem inSub_child {i p c : Nat} (h : inSub i p = true) (hc : c = 2 * p + 1 ∨ c = 2 * p + 2) :
    inSub i c = true := by
  have hip : i ≤ p := inSub_ge h
  have hic : i < c := by omega
  rw [inSub_step hic]
  have : (c - 1) / 2 = p := by omega
  rw [this]
  exact h

theorem inSub_parent_of_ne {i c : Nat} (hne : c ≠ i) (hc : inSub i c = true) :
    inSub i ((c - 1) / 2) = true := inSub_parent hc hne

theorem not_inSub_of_not_parent {i c : Nat} (hic : i < c)
    (h : inSub i ((c - 1) / 2) = false) : inSub i c = false := by
  rw [inSub_step hic]
  exact h

theorem inSub_zero (j : Nat) : inSub 0 j = true := by
  induction j using Nat.strong_induction_on with
  | _ j ih =>
    cases j with
    | zero => exact inSub_self 0
    | succ m =>
      rw [inSub_step (by omega)]
      exact ih (m / 2) (by omega)

end Prioq

namespace Prioq

/-! ### Correctness of the heapq engine -/

theorem bool_false_of_not_true {b : Bool} (h : ¬ b = true) : b = false := by
  cases b
  · rfl
  · exact absurd rfl h

/-- Master lemma for heapq._siftdown restricted to the subtree rooted at s:
if every heap edge inside the subtree holds for the array with ni written at
pos except possibly the edge into pos, and the children of pos dominate the
value at pos's parent, then after the sift every subtree edge holds, nothing
outside the subtree moved, and the contents are those of the array with ni
written at pos. -/
theorem siftdownAux_master {α : Type} [Inhabited α] [DecidableEq α] (lt : α → α → Bool)
    (hsto : IsSTO lt) (s : Nat) (ni : α) :
    ∀ fuel pos (h : List α),
      pos ≤ fuel →
      inSub s pos = true →
      pos < h.length →
      (∀ c, 0 < c → c < h.length → inSub s ((c - 1) / 2) = true → c ≠ pos →
        lt (nth (h.set pos ni) c) (nth (h.set pos ni) ((c - 1) / 2)) = false) →
      (s < pos → ∀ c, (c = 2 * pos + 1 ∨ c = 2 * pos + 2) → c < h.length →
        lt (nth (h.set pos ni) c) (nth h ((pos - 1) / 2)) = false) →
      (∀ c, 0 < c → c < (siftdownAux lt s ni fuel h pos).length →
          inSub s ((c - 1) / 2) = true →
          lt (nth (siftdownAux lt s ni fuel h pos) c)
            (nth (siftdownAux lt s ni fuel h pos) ((c - 1) / 2)) = false)
        ∧ (∀ j, inSub s j = false → nth (siftdownAux lt s ni fuel h pos) j = nth h j)
        ∧ (siftdownAux lt s ni fuel h pos).length = h.length
        ∧ (∀ x, List.count x (siftdownAux lt s ni fuel h pos)
            = List.count x (h.set pos ni)) := by
  intro fuel
  induction fuel with
  | zero =>
    intro pos h hfuel hin hlen hB hC
    have hpos : pos = 0 := by omega
    subst hpos
    have hs : s = 0 := by have := inSub_ge hin; omega
    subst hs
    simp only [siftdownAux]
    refine ⟨?_, ?_, by simp, by simp⟩
    · intro c hc0 hclen hcin
      have hclen' : c < h.length := by simpa using hclen
      exact hB c hc0 hclen' hcin (by omega)
    · intro j hj
      have hj0 : j ≠ 0 := by
        intro hj0
        rw [hj0, inSub_self] at hj
        exact Bool.noConfusion hj
      exact nth_set_ne h 0 j ni (by omega)
  | succ fuel ih =>
    intro pos h hfuel hin hlen hB hC
    have hsle : s ≤ pos := inSub_ge hin
    by_cases hsp : s < pos
    · by_cases hlt : lt ni (nth h ((pos - 1) / 2)) = true
      · -- the parent is greater: move it down and recurse at the parent slot
        have hstep : siftdownAux lt s ni (fuel + 1) h pos
            = siftdownAux lt s ni fuel (h.set pos (nth h ((pos - 1) / 2))) ((pos - 1) / 2) := by
          simp only [siftdownAux]
          rw [if_pos hsp, if_pos hlt]
        rw [hstep]
        have hpp_lt : (pos - 1) / 2 < pos := by omega
        have hne_pp_pos : (pos - 1) / 2 ≠ pos := by omega
        have hin_pp : inSub s ((pos - 1) / 2) = true := inSub_parent hin (by omega)
        have hlen2 : (pos - 1) / 2 < (h.set pos (nth h ((pos - 1) / 2))).length := by
          rw [List.length_set]; omega
        -- pointwise descriptions of the modified arrays
        have hHpos : nth (h.set pos ni) pos = ni := nth_set_eq h pos ni hlen
        have hHother : ∀ j, j ≠ pos → nth (h.set pos ni) j = nth h j := by
          intro j hj
          exact nth_set_ne h pos j ni (Ne.symm hj)
        have hH2pp : nth (h.set pos (nth h ((pos - 1) / 2))) ((pos - 1) / 2)
            = nth h ((pos - 1) / 2) :=
          nth_set_ne h pos _ _ (Ne.symm hne_pp_pos)
        have hH'pp : nth ((h.set pos (nth h ((pos - 1) / 2))).set ((pos - 1) / 2) ni)
            ((pos - 1) / 2) = ni := nth_set_eq _ _ ni hlen2
        have hH'pos : nth ((h.set pos (nth h ((pos - 1) / 2))).set ((pos - 1) / 2) ni) pos
            = nth h ((pos - 1) / 2) := by
          rw [nth_set_ne _ _ _ ni hne_pp_pos]
          exact nth_set_eq h pos _ hlen
        have hH'other : ∀ j, j ≠ (pos - 1) / 2 → j ≠ pos →
            nth ((h.set pos (nth h ((pos - 1) / 2))).set ((pos - 1) / 2) ni) j = nth h j := by
          intro j h1 h2
          rw [nth_set_ne _ _ _ ni (Ne.symm h1)]
          exact nth_set_ne h pos j _ (Ne.symm h2)
        -- hypothesis (B) for the recursive call
        have hB' : ∀ c, 0 < c → c < (h.set pos (nth h ((pos - 1) / 2))).length →
            inSub s ((c - 1) / 2) = true → c ≠ (pos - 1) / 2 →
            lt (nth ((h.set pos (nth h ((pos - 1) / 2))).set ((pos - 1) / 2) ni) c)
              (nth ((h.set pos (nth h ((pos - 1) / 2))).set ((pos - 1) / 2) ni) ((c - 1) / 2))
              = false := by
          intro c hc0 hclen2 hcin hcne
          have hclen' : c < h.length := by
            rw [List.length_set] at hclen2
            exact hclen2
          by_cases hcpos : c = pos
          · subst hcpos
            rw [hH'pos, hH'pp]
            exact hsto.asymm ni (nth h ((c - 1) / 2)) hlt
          · rw [hH'other c hcne hcpos]
            by_cases hqpos : (c - 1) / 2 = pos
            · -- c is a child of pos: use the bridging hypothesis (C)
              have hc_child : c = 2 * pos + 1 ∨ c = 2 * pos + 2 := by omega
              rw [hqpos, hH'pos]
              have hCc := hC hsp c hc_child hclen'
              rwa [hHother c hcpos] at hCc
            · by_cases hqpp : (c - 1) / 2 = (pos - 1) / 2
              · -- c is the sibling of pos below the parent slot
                rw [hqpp, hH'pp]
                have hBc := hB c hc0 hclen' hcin hcpos
                rw [hHother c hcpos, hqpp, hHother ((pos - 1) / 2) hne_pp_pos] at hBc
                exact hsto.lt_le_trans hlt hBc
              · -- an edge untouched by this step
                rw [hH'other ((c - 1) / 2) hqpp hqpos]
                have hBc := hB c hc0 hclen' hcin hcpos
                rwa [hHother c hcpos, hHother ((c - 1) / 2) hqpos] at hBc
        -- hypothesis (C) for the recursive call
        have hC' : s < (pos - 1) / 2 → ∀ c,
            (c = 2 * ((pos - 1) / 2) + 1 ∨ c = 2 * ((pos - 1) / 2) + 2) →
            c < (h.set pos (nth h ((pos - 1) / 2))).length →
            lt (nth ((h.set pos (nth h ((pos - 1) / 2))).set ((pos - 1) / 2) ni) c)
              (nth (h.set pos (nth h ((pos - 1) / 2))) (((pos - 1) / 2 - 1) / 2)) = false := by
          intro hspp c hcch hclen2
          have hclen' : c < h.length := by
            rw [List.length_set] at hclen2
            exact hclen2
          have hc0 : 0 < c := by omega
          have hppp_ne_pos : ((pos - 1) / 2 - 1) / 2 ≠ pos := by omega
          rw [nth_set_ne h pos _ _ (Ne.symm hppp_ne_pos)]
          have hpp0 : 0 < (pos - 1) / 2 := by omega
          have hpp_len : (pos - 1) / 2 < h.length := by omega
          have hpp_in : inSub s (((pos - 1) / 2 - 1) / 2) = true :=
            inSub_parent hin_pp (by omega)
          have hEdge_pp : lt (nth h ((pos - 1) / 2)) (nth h (((pos - 1) / 2 - 1) / 2))
              = false := by
            have hBpp := hB ((pos - 1) / 2) hpp0 hpp_len hpp_in hne_pp_pos
            rwa [hHother ((pos - 1) / 2) hne_pp_pos,
              hHother (((pos - 1) / 2 - 1) / 2) hppp_ne_pos] at hBpp
          by_cases hcpos : c = pos
          · subst hcpos
            rw [hH'pos]
            exact hEdge_pp
          · have hcpp : c ≠ (pos - 1) / 2 := by omega
            rw [hH'other c hcpp hcpos]
            have hcq : (c - 1) / 2 = (pos - 1) / 2 := by omega
            have hEdge_c : lt (nth h c) (nth h ((pos - 1) / 2)) = false := by
              have hBc := hB c hc0 hclen' (by rw [hcq]; exact hin_pp) hcpos
              rwa [hHother c hcpos, hcq, hHother ((pos - 1) / 2) hne_pp_pos] at hBc
            exact hsto.le_trans hEdge_pp hEdge_c
        obtain ⟨ih1, ih2, ih3, ih4⟩ :=
          ih ((pos - 1) / 2) (h.set pos (nth h ((pos - 1) / 2))) (by omega) hin_pp hlen2 hB' hC'
        refine ⟨ih1, ?_, ?_, ?_⟩
        · intro j hj
          have hjpos : j ≠ pos := by
            intro e
            rw [e, hin] at hj
            exact Bool.noConfusion hj
          rw [ih2 j hj]
          exact nth_set_ne h pos j _ (Ne.symm hjpos)
        · rw [ih3, List.length_set]
        · intro x
          rw [ih4 x]
          have e1 := count_set (h.set pos (nth h ((pos - 1) / 2))) ((pos - 1) / 2) ni x hlen2
          rw [hH2pp] at e1
          have e2 := count_set h pos (nth h ((pos - 1) / 2)) x hlen
          have e3 := count_set h pos ni x hlen
          omega
      · -- the parent is not greater: place ni at pos and stop
        have hlt' : lt ni (nth h ((pos - 1) / 2)) = false := bool_false_of_not_true hlt
        have hstep : siftdownAux lt s ni (fuel + 1) h pos = h.set pos ni := by
          simp only [siftdownAux]
          rw [if_pos hsp, if_neg (by rw [hlt']; exact Bool.noConfusion)]
        rw [hstep]
        have hHpos : nth (h.set pos ni) pos = ni := nth_set_eq h pos ni hlen
        have hHother : ∀ j, j ≠ pos → nth (h.set pos ni) j = nth h j := by
          intro j hj
          exact nth_set_ne h pos j ni (Ne.symm hj)
        refine ⟨?_, ?_, by rw [List.length_set], fun x => rfl⟩
        · intro c hc0 hclen2 hcin
          have hclen' : c < h.length := by
            rw [List.length_set] at hclen2
            exact hclen2
          by_cases hcpos : c = pos
          · subst hcpos
            rw [hHpos, hHother ((c - 1) / 2) (by omega)]
            exact hlt'
          · exact hB c hc0 hclen' hcin hcpos
        · intro j hj
          have hjpos : j ≠ pos := by
            intro e
            rw [e, hin] at hj
            exact Bool.noConfusion hj
          exact nth_set_ne h pos j ni (Ne.symm hjpos)
    · -- pos = s: write ni and stop
      have hpos : pos = s := by omega
      have hstep : siftdownAux lt s ni (fuel + 1) h pos = h.set pos ni := by
        simp only [siftdownAux]
        rw [if_neg hsp]
      rw [hstep]
      refine ⟨?_, ?_, by rw [List.length_set], fun x => rfl⟩
      · intro c hc0 hclen2 hcin
        have hclen' : c < h.length := by
          rw [List.length_set] at hclen2
          exact hclen2
        have hcpos : c ≠ pos := by
          intro e
          rw [e, hpos] at hcin
          rcases Nat.eq_zero_or_pos s with hs0 | hs0
          · omega
          · rw [inSub_of_lt s ((s - 1) / 2) (by omega)] at hcin
            exact Bool.noConfusion hcin
        exact hB c hc0 hclen' hcin hcpos
      · intro j hj
        have hjpos : j ≠ pos := by
          intro e
          rw [e, hin] at hj
          exact Bool.noConfusion hj
        exact nth_set_ne h pos j ni (Ne.symm hjpos)

end Prioq

namespace Prioq

/-- Master lemma for the descent loop of heapq._siftup: starting from the
subtree root i with every subtree edge not out of the hole position holding
(edges out of i itself exempt at the start) and the hole's parent slot
duplicating the hole value, the loop ends at a leaf of the subtree with the
same invariant, positions outside the subtree untouched, and contents of
the array with any value written into the hole preserved. -/
theorem siftupLoop_master {α : Type} [Inhabited α] [DecidableEq α] (lt : α → α → Bool)
    (hsto : IsSTO lt) (i endpos : Nat) :
    ∀ fuel (h : List α) pos,
      endpos = h.length →
      endpos - pos ≤ fuel →
      inSub i pos = true →
      pos < endpos →
      (∀ c, 0 < c → c < endpos → inSub i ((c - 1) / 2) = true → c ≠ pos →
        ((c - 1) / 2 = pos → pos ≠ i) →
        lt (nth h c) (nth h ((c - 1) / 2)) = false) →
      (pos ≠ i → nth h ((pos - 1) / 2) = nth h pos) →
      ((siftupLoop lt endpos fuel h pos).1.length = endpos)
        ∧ inSub i (siftupLoop lt endpos fuel h pos).2 = true
        ∧ (siftupLoop lt endpos fuel h pos).2 < endpos
        ∧ endpos ≤ 2 * (siftupLoop lt endpos fuel h pos).2 + 1
        ∧ (∀ j, inSub i j = false → nth (siftupLoop lt endpos fuel h pos).1 j = nth h j)
        ∧ (∀ c, 0 < c → c < endpos → inSub i ((c - 1) / 2) = true →
            c ≠ (siftupLoop lt endpos fuel h pos).2 →
            ((c - 1) / 2 = (siftupLoop lt endpos fuel h pos).2 →
              (siftupLoop lt endpos fuel h pos).2 ≠ i) →
            lt (nth (siftupLoop lt endpos fuel h pos).1 c)
              (nth (siftupLoop lt endpos fuel h pos).1 ((c - 1) / 2)) = false)
        ∧ (∀ (x a : α), List.count x ((siftupLoop lt endpos fuel h pos).1.set
              (siftupLoop lt endpos fuel h pos).2 a) = List.count x (h.set pos a)) := by
  intro fuel
  induction fuel with
  | zero =>
    intro h pos hend hfuel hin hlen hJ2 hJ5
    exact absurd hlen (by omega)
  | succ fuel ih =>
    intro h pos hend hfuel hin hlen hJ2 hJ5
    have hipos : i ≤ pos := inSub_ge hin
    by_cases hchild : 2 * pos + 1 < endpos
    · -- one descent step: shared argument for either selected child
      have key : ∀ mc, (mc = 2 * pos + 1 ∨ mc = 2 * pos + 2) → mc < endpos →
          (∀ c, (c = 2 * pos + 1 ∨ c = 2 * pos + 2) → c < endpos → c ≠ mc →
            lt (nth h c) (nth h mc) = false) →
          ((siftupLoop lt endpos fuel (h.set pos (nth h mc)) mc).1.length = endpos)
            ∧ inSub i (siftupLoop lt endpos fuel (h.set pos (nth h mc)) mc).2 = true
            ∧ (siftupLoop lt endpos fuel (h.set pos (nth h mc)) mc).2 < endpos
            ∧ endpos ≤ 2 * (siftupLoop lt endpos fuel (h.set pos (nth h mc)) mc).2 + 1
            ∧ (∀ j, inSub i j = false →
                nth (siftupLoop lt endpos fuel (h.set pos (nth h mc)) mc).1 j = nth h j)
            ∧ (∀ c, 0 < c → c < endpos → inSub i ((c - 1) / 2) = true →
                c ≠ (siftupLoop lt endpos fuel (h.set pos (nth h mc)) mc).2 →
                ((c - 1) / 2 = (siftupLoop lt endpos fuel (h.set pos (nth h mc)) mc).2 →
                  (siftupLoop lt endpos fuel (h.set pos (nth h mc)) mc).2 ≠ i) →
                lt (nth (siftupLoop lt endpos fuel (h.set pos (nth h mc)) mc).1 c)
                  (nth (siftupLoop lt endpos fuel (h.set pos (nth h mc)) mc).1 ((c - 1) / 2))
                  = false)
            ∧ (∀ (x a : α),
                List.count x ((siftupLoop lt endpos fuel (h.set pos (nth h mc)) mc).1.set
                  (siftupLoop lt endpos fuel (h.set pos (nth h mc)) mc).2 a)
                  = List.count x (h.set pos a)) := by
        intro mc hmc hmc_lt hmin
        have hmc_pos : pos < mc := by omega
        have hmc_ne_pos : mc ≠ pos := by omega
        have hin_mc : inSub i mc = true := inSub_child hin hmc
        have hmc_ne_i : mc ≠ i := by omega
        have hlen_h : pos < h.length := by omega
        have hmc_len : mc < h.length := by omega
        have hend' : endpos = (h.set pos (nth h mc)).length := by
          rw [List.length_set]; exact hend
        have hH'pos : nth (h.set pos (nth h mc)) pos = nth h mc :=
          nth_set_eq h pos _ hlen_h
        have hH'other : ∀ j, j ≠ pos → nth (h.set pos (nth h mc)) j = nth h j := by
          intro j hj
          exact nth_set_ne h pos j _ (Ne.symm hj)
        have hJ2' : ∀ c, 0 < c → c < endpos → inSub i ((c - 1) / 2) = true → c ≠ mc →
            ((c - 1) / 2 = mc → mc ≠ i) →
            lt (nth (h.set pos (nth h mc)) c) (nth (h.set pos (nth h mc)) ((c - 1) / 2))
              = false := by
          intro c hc0 hclen hcin hcne _
          by_cases hcpos : c = pos
          · subst hcpos
            have hq_ne : (c - 1) / 2 ≠ c := by omega
            rw [hH'pos, hH'other ((c - 1) / 2) hq_ne]
            have hc_ne_i : c ≠ i := by
              intro e
              rcases Nat.eq_zero_or_pos c with h0 | h0
              · omega
              · rw [e] at hcin
                rw [inSub_of_lt i ((i - 1) / 2) (by omega)] at hcin
                exact Bool.noConfusion hcin
            rw [hJ5 hc_ne_i]
            have hq : (mc - 1) / 2 = c := by omega
            have hres := hJ2 mc (by omega) hmc_lt (by rw [hq]; exact hin) hmc_ne_pos
              (fun _ => hc_ne_i)
            rwa [hq] at hres
          · rw [hH'other c hcpos]
            by_cases hqpos : (c - 1) / 2 = pos
            · have hc_child : c = 2 * pos + 1 ∨ c = 2 * pos + 2 := by omega
              rw [hqpos, hH'pos]
              exact hmin c hc_child hclen hcne
            · rw [hH'other ((c - 1) / 2) hqpos]
              exact hJ2 c hc0 hclen hcin hcpos (fun e => absurd e hqpos)
        have hJ5' : mc ≠ i → nth (h.set pos (nth h mc)) ((mc - 1) / 2)
            = nth (h.set pos (nth h mc)) mc := by
          intro _
          have hq : (mc - 1) / 2 = pos := by omega
          rw [hq, hH'pos, hH'other mc hmc_ne_pos]
        obtain ⟨a1, a2, a3, a4, a5, a6, a7⟩ :=
          ih (h.set pos (nth h mc)) mc hend' (by omega) hin_mc hmc_lt hJ2' hJ5'
        refine ⟨a1, a2, a3, a4, ?_, a6, ?_⟩
        · intro j hj
          have hjpos : j ≠ pos := by
            intro e
            rw [e, hin] at hj
            exact Bool.noConfusion hj
          rw [a5 j hj]
          exact hH'other j hjpos
        · intro x a
          rw [a7 x a]
          have hmc_len' : mc < (h.set pos (nth h mc)).length := by
            rw [List.length_set]; exact hmc_len
          have e1 := count_set (h.set pos (nth h mc)) mc a x hmc_len'
          rw [hH'other mc hmc_ne_pos] at e1
          have e2 := count_set h pos (nth h mc) x hlen_h
          have e3 := count_set h pos a x hlen_h
          omega
      by_cases hsel : (decide (2 * pos + 2 < endpos)
          && !(lt (nth h (2 * pos + 1)) (nth h (2 * pos + 2)))) = true
      · have hs1 : 2 * pos + 2 < endpos := by
          by_contra hcon
          rw [decide_eq_false hcon] at hsel
          simp at hsel
        have hs2 : lt (nth h (2 * pos + 1)) (nth h (2 * pos + 2)) = false := by
          cases hx : lt (nth h (2 * pos + 1)) (nth h (2 * pos + 2))
          · rfl
          · rw [hx] at hsel
            simp at hsel
        have hstep : siftupLoop lt endpos (fuel + 1) h pos
            = siftupLoop lt endpos fuel (h.set pos (nth h (2 * pos + 2))) (2 * pos + 2) := by
          simp only [siftupLoop]
          rw [if_pos hchild, if_pos hsel]
        rw [hstep]
        refine key (2 * pos + 2) (Or.inr rfl) hs1 ?_
        intro c hc hclen hcne
        have hc1 : c = 2 * pos + 1 := by omega
        rw [hc1]
        exact hs2
      · have hsel' : 2 * pos + 2 < endpos →
            lt (nth h (2 * pos + 1)) (nth h (2 * pos + 2)) = true := by
          intro h2
          cases hx : lt (nth h (2 * pos + 1)) (nth h (2 * pos + 2))
          · exfalso
            apply hsel
            rw [decide_eq_true h2, hx]
            rfl
          · rfl
        have hstep : siftupLoop lt endpos (fuel + 1) h pos
            = siftupLoop lt endpos fuel (h.set pos (nth h (2 * pos + 1))) (2 * pos + 1) := by
          simp only [siftupLoop]
          rw [if_pos hchild, if_neg hsel]
        rw [hstep]
        refine key (2 * pos + 1) (Or.inl rfl) hchild ?_
        intro c hc hclen hcne
        have hc2 : c = 2 * pos + 2 := by omega
        rw [hc2] at hclen ⊢
        exact hsto.asymm _ _ (hsel' hclen)
    · -- leaf reached: the loop stops
      have hstep : siftupLoop lt endpos (fuel + 1) h pos = (h, pos) := by
        simp only [siftupLoop]
        rw [if_neg hchild]
      rw [hstep]
      exact ⟨hend.symm, hin, hlen, by omega, fun j _ => rfl, hJ2, fun x a => rfl⟩

end Prioq

namespace Prioq

theorem nth_eq_getElem {α : Type} [Inhabited α] (l : List α) (i : Nat) (h : i < l.length) :
    nth l i = l[i] := by
  simp [nth, List.getElem?_eq_getElem h]

/-- heapq._siftup restores every heap edge inside the subtree rooted at i,
provided the edges strictly below i already held; positions outside the
subtree and the array contents are unchanged. -/
theorem siftup_master {α : Type} [Inhabited α] [DecidableEq α] (lt : α → α → Bool)
    (hsto : IsSTO lt) (i : Nat) (h : List α) (hlen : i < h.length)
    (hpre : ∀ c, 0 < c → c < h.length → inSub i ((c - 1) / 2) = true → (c - 1) / 2 ≠ i →
      lt (nth h c) (nth h ((c - 1) / 2)) = false) :
    (∀ c, 0 < c → c < h.length → inSub i ((c - 1) / 2) = true →
      lt (nth (siftup lt h i) c) (nth (siftup lt h i) ((c - 1) / 2)) = false)
    ∧ (∀ j, inSub i j = false → nth (siftup lt h i) j = nth h j)
    ∧ (siftup lt h i).length = h.length
    ∧ (∀ x, List.count x (siftup lt h i) = List.count x h) := by
  obtain ⟨a1, a2, a3, a4, a5, a6, a7⟩ :=
    siftupLoop_master lt hsto i h.length h.length h i rfl (by omega) (inSub_self i) hlen
      (by
        intro c hc0 hclen hcin hcne hcav
        by_cases hq : (c - 1) / 2 = i
        · exact absurd rfl (hcav hq)
        · exact hpre c hc0 hclen hcin hq)
      (fun hni => absurd rfl hni)
  have hunf : siftup lt h i
      = siftdownAux lt i (nth h i) (siftupLoop lt h.length h.length h i).2
          ((siftupLoop lt h.length h.length h i).1.set
            (siftupLoop lt h.length h.length h i).2 (nth h i))
          (siftupLoop lt h.length h.length h i).2 := rfl
  rw [hunf]
  have hr2len : (siftupLoop lt h.length h.length h i).2
      < ((siftupLoop lt h.length h.length h i).1.set
          (siftupLoop lt h.length h.length h i).2 (nth h i)).length := by
    rw [List.length_set, a1]
    exact a3
  obtain ⟨b1, b2, b3, b4⟩ :=
    siftdownAux_master lt hsto i (nth h i) (siftupLoop lt h.length h.length h i).2
      (siftupLoop lt h.length h.length h i).2
      ((siftupLoop lt h.length h.length h i).1.set
        (siftupLoop lt h.length h.length h i).2 (nth h i))
      (Nat.le_refl _) a2 hr2len
      (by
        intro c hc0 hclen hcin hcne
        have hclen' : c < h.length := by
          rw [List.length_set, a1] at hclen
          exact hclen
        have hq_ne : (c - 1) / 2 ≠ (siftupLoop lt h.length h.length h i).2 := by omega
        rw [nth_set_ne _ _ _ _ (Ne.symm hcne), nth_set_ne _ _ _ _ (Ne.symm hcne),
          nth_set_ne _ _ _ _ (Ne.symm hq_ne), nth_set_ne _ _ _ _ (Ne.symm hq_ne)]
        exact a6 c hc0 hclen' hcin hcne (fun e => absurd e hq_ne)
      )
      (by
        intro _ c hcch hclen
        rw [List.length_set, a1] at hclen
        omega)
  refine ⟨?_, ?_, ?_, ?_⟩
  · intro c hc0 hclen hcin
    apply b1 c hc0 _ hcin
    rw [b3, List.length_set, a1]
    exact hclen
  · intro j hj
    have hj2 : j ≠ (siftupLoop lt h.length h.length h i).2 := by
      intro e
      rw [e, a2] at hj
      exact Bool.noConfusion hj
    rw [b2 j hj, nth_set_ne _ _ _ _ (Ne.symm hj2)]
    exact a5 j hj
  · rw [b3, List.length_set, a1]
  · intro x
    rw [b4 x]
    have e1 := count_set
      ((siftupLoop lt h.length h.length h i).1.set
        (siftupLoop lt h.length h.length h i).2 (nth h i))
      (siftupLoop lt h.length h.length h i).2 (nth h i) x hr2len
    rw [nth_set_eq _ _ _ (by rw [a1]; exact a3)] at e1
    have e2 := a7 x (nth h i)
    rw [set_nth_self h i] at e2
    omega

/-- The heapify loop: once every heap edge with parameter index at least k
holds, running the sifts at k-1, ..., 0 yields a full heap with the same
contents. -/
theorem heapifyLoop_correct {α : Type} [Inhabited α] [DecidableEq α] (lt : α → α → Bool)
    (hsto : IsSTO lt) :
    ∀ k (h : List α), 2 * k ≤ h.length →
      (∀ c, 0 < c → c < h.length → k ≤ (c - 1) / 2 →
        lt (nth h c) (nth h ((c - 1) / 2)) = false) →
      IsHeap lt (heapifyLoop lt h k) ∧ (heapifyLoop lt h k).length = h.length
        ∧ (∀ x, List.count x (heapifyLoop lt h k) = List.count x h) := by
  intro k
  induction k with
  | zero =>
    intro h _ hinv
    exact ⟨fun c hc0 hclen => hinv c hc0 hclen (by omega), rfl, fun x => rfl⟩
  | succ k ih =>
    intro h hk hinv
    have hklen : k < h.length := by omega
    obtain ⟨s1, s2, s3, s4⟩ := siftup_master lt hsto k h hklen (by
      intro c hc0 hclen hcin hcne
      have hge : k + 1 ≤ (c - 1) / 2 := by
        have := inSub_ge hcin
        omega
      exact hinv c hc0 hclen hge)
    have hstep : heapifyLoop lt h (k + 1) = heapifyLoop lt (siftup lt h k) k := rfl
    rw [hstep]
    have hinv' : ∀ c, 0 < c → c < (siftup lt h k).length → k ≤ (c - 1) / 2 →
        lt (nth (siftup lt h k) c) (nth (siftup lt h k) ((c - 1) / 2)) = false := by
      intro c hc0 hclen hge
      have hclen' : c < h.length := by rw [← s3]; exact hclen
      by_cases hcin : inSub k ((c - 1) / 2) = true
      · exact s1 c hc0 hclen' hcin
      · have hcin' : inSub k ((c - 1) / 2) = false := bool_false_of_not_true hcin
        have hpar_ne : (c - 1) / 2 ≠ k := by
          intro e
          rw [e, inSub_self] at hcin'
          exact Bool.noConfusion hcin'
        have hc_big : k < c := by omega
        have hcout : inSub k c = false := not_inSub_of_not_parent hc_big hcin'
        rw [s2 c hcout, s2 ((c - 1) / 2) hcin']
        exact hinv c hc0 hclen' (by omega)
    obtain ⟨t1, t2, t3⟩ := ih (siftup lt h k) (by omega) hinv'
    exact ⟨t1, by rw [t2, s3], fun x => by rw [t3 x, s4 x]⟩

/-- heapq.heapify produces a heap with the same contents and length. -/
theorem heapify_correct {α : Type} [Inhabited α] [DecidableEq α] (lt : α → α → Bool)
    (hsto : IsSTO lt) (h : List α) :
    IsHeap lt (heapify lt h) ∧ (heapify lt h).length = h.length
      ∧ (∀ x, List.count x (heapify lt h) = List.count x h) := by
  apply heapifyLoop_correct lt hsto (h.length / 2) h (by omega)
  intro c hc0 hclen hge
  omega

/-- heapq.heappush preserves the heap invariant; the result is the input
with x appended (as a multiset), one longer. -/
theorem heappush_correct {α : Type} [Inhabited α] [DecidableEq α] (lt : α → α → Bool)
    (hsto : IsSTO lt) (h : List α) (x : α) (hh : IsHeap lt h) :
    IsHeap lt (heappush lt h x) ∧ (heappush lt h x).length = h.length + 1
      ∧ (∀ y, List.count y (heappush lt h x) = List.count y (h ++ [x])) := by
  have hset : (h ++ [x]).set h.length x = h ++ [x] := by
    have := set_nth_self (h ++ [x]) h.length
    rwa [nth_append_len] at this
  obtain ⟨b1, b2, b3, b4⟩ :=
    siftdownAux_master lt hsto 0 x h.length h.length (h ++ [x]) (Nat.le_refl _)
      (inSub_zero h.length) (by simp)
      (by
        intro c hc0 hclen hcin hcne
        rw [hset]
        have hclen2 : c < h.length := by
          simp only [List.length_append, List.length_singleton] at hclen
          omega
        have hq2 : (c - 1) / 2 < h.length := by omega
        rw [nth_append_left h [x] c hclen2, nth_append_left h [x] _ hq2]
        exact hh c hc0 hclen2)
      (by
        intro hpos c hcch hclen
        simp only [List.length_append, List.length_singleton] at hclen
        omega)
  refine ⟨?_, ?_, ?_⟩
  · intro c hc0 hclen
    exact b1 c hc0 hclen (inSub_zero _)
  · rw [show heappush lt h x = siftdownAux lt 0 x h.length (h ++ [x]) h.length from rfl,
      b3]
    simp
  · intro y
    rw [show heappush lt h x = siftdownAux lt 0 x h.length (h ++ [x]) h.length from rfl,
      b4 y, hset]

/-- heapq.heappop on a non-empty heap returns the root; the remainder is a
heap, one shorter, containing the rest of the elements. -/
theorem heappop_correct {α : Type} [Inhabited α] [DecidableEq α] (lt : α → α → Bool)
    (hsto : IsSTO lt) (h : List α) (hh : IsHeap lt h) (hne : h ≠ []) :
    ∃ h2, heappop lt h = some (nth h 0, h2) ∧ IsHeap lt h2 ∧ h2.length = h.length - 1
      ∧ (∀ y, List.count y h = List.count y h2 + (if nth h 0 = y then 1 else 0)) := by
  match h, hne with
  | [a], _ =>
    refine ⟨[], rfl, fun c hc0 hclen => by simp at hclen, rfl, ?_⟩
    intro y
    have : nth [a] 0 = a := rfl
    rw [this]
    by_cases hay : a = y <;> simp [hay, List.count_cons]
  | a :: b :: t, _ =>
    have hlen2 : 2 ≤ (a :: b :: t).length := by simp
    have hrest_ne : ((a :: b :: t).dropLast).isEmpty = false := by
      cases hdl : (a :: b :: t).dropLast with
      | nil =>
        have := congrArg List.length hdl
        simp at this
      | cons u v => rfl
    have hstep : heappop lt (a :: b :: t)
        = some (nth ((a :: b :: t).dropLast) 0,
            siftup lt (((a :: b :: t).dropLast).set 0
              (nth (a :: b :: t) ((a :: b :: t).length - 1))) 0) := by
      simp only [heappop]
      rw [hrest_ne]
      simp
    have hdrop_len : ((a :: b :: t).dropLast).length = (a :: b :: t).length - 1 := by
      simp
    have hglen : 0 < (((a :: b :: t).dropLast).set 0
        (nth (a :: b :: t) ((a :: b :: t).length - 1))).length := by
      rw [List.length_set, hdrop_len]
      simp
    obtain ⟨s1, s2, s3, s4⟩ := siftup_master lt hsto 0
      (((a :: b :: t).dropLast).set 0 (nth (a :: b :: t) ((a :: b :: t).length - 1)))
      hglen
      (by
        intro c hc0 hclen hcin hcne
        have hclen' : c < (a :: b :: t).length - 1 := by
          rw [List.length_set, hdrop_len] at hclen
          exact hclen
        have hq_lt : (c - 1) / 2 < (a :: b :: t).length - 1 := by omega
        have hq_pos : (c - 1) / 2 ≠ 0 := hcne
        rw [nth_set_ne _ _ _ _ (by omega), nth_set_ne _ _ _ _ (by omega),
          nth_dropLast _ _ (by omega), nth_dropLast _ _ (by omega)]
        exact hh c hc0 (by omega))
    rw [hstep]
    refine ⟨siftup lt (((a :: b :: t).dropLast).set 0
        (nth (a :: b :: t) ((a :: b :: t).length - 1))) 0, ?_, ?_, ?_, ?_⟩
    · rw [nth_dropLast _ _ (by simp)]
    · intro c hc0 hclen
      rw [s3, List.length_set] at hclen
      exact s1 c hc0 (by rw [List.length_set]; exact hclen) (inSub_zero _)
    · rw [s3, List.length_set, hdrop_len]
    · intro y
      rw [s4 y]
      have e1 := count_set ((a :: b :: t).dropLast) 0
        (nth (a :: b :: t) ((a :: b :: t).length - 1)) y (by rw [hdrop_len]; simp)
      rw [nth_dropLast _ _ (by simp)] at e1
      have hsplit : (a :: b :: t) = (a :: b :: t).dropLast
          ++ [(a :: b :: t).getLast (by simp)] := (List.dropLast_append_getLast _).symm
      have hlast : (a :: b :: t).getLast (by simp)
          = nth (a :: b :: t) ((a :: b :: t).length - 1) := by
        have hb : (a :: b :: t).length - 1 < (a :: b :: t).length := by simp
        rw [nth_eq_getElem _ _ hb, List.getLast_eq_getElem]
      have e2 : List.count y (a :: b :: t)
          = List.count y ((a :: b :: t).dropLast)
            + List.count y [nth (a :: b :: t) ((a :: b :: t).length - 1)] := by
        conv =>
          lhs
          rw [hsplit]
        rw [List.count_append, hlast]
      have e3 : List.count y [nth (a :: b :: t) ((a :: b :: t).length - 1)]
          = if nth (a :: b :: t) ((a :: b :: t).length - 1) = y then 1 else 0 := by
        by_cases hx : nth (a :: b :: t) ((a :: b :: t).length - 1) = y <;>
          simp [hx, List.count_cons]
      rw [e3] at e2
      omega

/-- In a heap the root is a minimum: no element is less than nth h 0. -/
theorem isHeap_root_min {α : Type} [Inhabited α] (lt : α → α → Bool) (hsto : IsSTO lt)
    (h : List α) (hh : IsHeap lt h) :
    ∀ j, j < h.length → lt (nth h j) (nth h 0) = false := by
  intro j
  induction j using Nat.strong_induction_on with
  | _ j ih =>
    intro hj
    cases Nat.eq_zero_or_pos j with
    | inl h0 =>
      rw [h0]
      exact hsto.irrefl _
    | inr h0 =>
      have hpar := ih ((j - 1) / 2) (by omega) (by omega)
      have hedge := hh j h0 hj
      exact hsto.le_trans hpar hedge

end Prioq

namespace Prioq

/-! ### The derived item orders are strict total orders -/

theorem itemLt_sto (key : Option (Int → Int)) (rev : Bool) : IsSTO (itemLt key rev) := by
  constructor
  · intro a b
    rcases key with _ | f <;> cases rev <;>
      simp [itemLt, lexLt, decide_eq_true_eq, decide_eq_false_iff_not, beq_iff_eq] <;>
      omega
  · intro a b c
    rcases key with _ | f <;> cases rev <;>
      simp [itemLt, lexLt, decide_eq_true_eq, decide_eq_false_iff_not, beq_iff_eq] <;>
      omega
  · intro a b hne
    rcases key with _ | f <;> cases rev <;>
      simp [itemLt, lexLt, decide_eq_true_eq, decide_eq_false_iff_not, beq_iff_eq] <;>
      omega

/-- The key-only comparison implies the item comparison (the item order
refines the priority-key order with a value tiebreak). -/
theorem keyLt_imp_itemLt (key : Option (Int → Int)) (rev : Bool) (a b : Int)
    (h : keyLt key rev a b = true) : itemLt key rev a b = true := by
  rcases key with _ | f <;> cases rev <;>
    simp [keyLt, priKey, itemLt, lexLt, decide_eq_true_eq, beq_iff_eq] at * <;>
    omega

/-! ### Sorting lemmas -/

theorem stableInsert_count (ltb : Int → Int → Bool) (x : Int) (l : List Int) (y : Int) :
    List.count y (stableInsert ltb x l) = List.count y (x :: l) := by
  induction l with
  | nil => rfl
  | cons z zs ih =>
    simp only [stableInsert]
    by_cases hz : ltb z x = true
    · rw [if_pos hz]
      simp only [List.count_cons, ih, List.count_cons]
      omega
    · rw [if_neg hz]

theorem stableSortBy_count (ltb : Int → Int → Bool) (l : List Int) (y : Int) :
    List.count y (stableSortBy ltb l) = List.count y l := by
  induction l with
  | nil => rfl
  | cons z zs ih =>
    simp only [stableSortBy]
    rw [stableInsert_count, List.count_cons, List.count_cons, ih]

theorem stableSortBy_length (ltb : Int → Int → Bool) (l : List Int) :
    (stableSortBy ltb l).length = l.length := by
  induction l with
  | nil => rfl
  | cons z zs ih =>
    have hins : ∀ (x : Int) (m : List Int), (stableInsert ltb x m).length = m.length + 1 := by
      intro x m
      induction m with
      | nil => rfl
      | cons w ws ihw =>
        simp only [stableInsert]
        by_cases hw : ltb w x = true
        · rw [if_pos hw]
          simp [ihw]
        · rw [if_neg hw]
          simp
    simp only [stableSortBy]
    rw [hins, ih]
    simp

theorem stableInsert_mem (ltb : Int → Int → Bool) (x z : Int) (l : List Int) :
    z ∈ stableInsert ltb x l ↔ z = x ∨ z ∈ l := by
  induction l with
  | nil => simp [stableInsert]
  | cons w ws ih =>
    simp only [stableInsert]
    by_cases hw : ltb w x = true
    · rw [if_pos hw]
      simp only [List.mem_cons, ih]
      tauto
    · rw [if_neg hw]
      simp [List.mem_cons]

theorem stableInsert_pairwise (ltb : Int → Int → Bool) (hsto : IsSTO ltb) (x : Int)
    (l : List Int) (hl : List.Pairwise (fun a b => ltb b a = false) l) :
    List.Pairwise (fun a b => ltb b a = false) (stableInsert ltb x l) := by
  induction l with
  | nil => simp [stableInsert]
  | cons y ys ih =>
    rcases List.pairwise_cons.mp hl with ⟨hy, hys⟩
    simp only [stableInsert]
    by_cases hyx : ltb y x = true
    · rw [if_pos hyx]
      refine List.pairwise_cons.mpr ⟨?_, ih hys⟩
      intro z hz
      rcases (stableInsert_mem ltb x z ys).mp hz with hz | hz
      · rw [hz]
        exact hsto.asymm y x hyx
      · exact hy z hz
    · rw [if_neg hyx]
      have hyx' : ltb y x = false := bool_false_of_not_true hyx
      refine List.pairwise_cons.mpr ⟨?_, hl⟩
      intro z hz
      rcases List.mem_cons.mp hz with hz | hz
      · rw [hz]
        exact hyx'
      · exact hsto.le_trans hyx' (hy z hz)

theorem stableSortBy_pairwise (ltb : Int → Int → Bool) (hsto : IsSTO ltb) (l : List Int) :
    List.Pairwise (fun a b => ltb b a = false) (stableSortBy ltb l) := by
  induction l with
  | nil => simp [stableSortBy]
  | cons z zs ih =>
    exact stableInsert_pairwise ltb hsto z (stableSortBy ltb zs) ih

/-! ### The consuming membership scan of __le__ -/

theorem dropUntil_some (x : Int) :
    ∀ ys rest, dropUntil x ys = some rest →
      ∃ pre, ys = pre ++ x :: rest ∧ ∀ p ∈ pre, p ≠ x := by
  intro ys
  induction ys with
  | nil => intro rest h; exact absurd h (by simp [dropUntil])
  | cons y ys ih =>
    intro rest h
    simp only [dropUntil] at h
    by_cases hy : y = x
    · rw [if_pos hy] at h
      refine ⟨[], ?_, by simp⟩
      rw [List.nil_append, hy, Option.some_inj.mp h]
    · rw [if_neg hy] at h
      obtain ⟨pre, hpre, hnp⟩ := ih rest h
      refine ⟨y :: pre, by rw [List.cons_append, hpre], ?_⟩
      intro p hp
      rcases List.mem_cons.mp hp with hp | hp
      · rw [hp]; exact hy
      · exact hnp p hp

theorem dropUntil_of_mem (x : Int) :
    ∀ ys, x ∈ ys → ∃ rest, dropUntil x ys = some rest := by
  intro ys
  induction ys with
  | nil => intro h; simp at h
  | cons y ys ih =>
    intro h
    simp only [dropUntil]
    by_cases hy : y = x
    · rw [if_pos hy]
      exact ⟨ys, rfl⟩
    · rw [if_neg hy]
      rcases List.mem_cons.mp h with h | h
      · exact absurd h.symm hy
      · exact ih h

theorem consumeAll_sound :
    ∀ xs ys, consumeAll xs ys = true → ∀ z, List.count z xs ≤ List.count z ys := by
  intro xs
  induction xs with
  | nil => intro ys _ z; simp
  | cons x xs ih =>
    intro ys h z
    simp only [consumeAll] at h
    cases hdrop : dropUntil x ys with
    | none => rw [hdrop] at h; exact absurd h (by simp)
    | some rest =>
      rw [hdrop] at h
      obtain ⟨pre, hpre, _⟩ := dropUntil_some x ys rest hdrop
      have hz := ih rest h z
      rw [hpre, List.count_append, List.count_cons, List.count_cons]
      omega

theorem consumeAll_complete (ltb : Int → Int → Bool) (hsto : IsSTO ltb) :
    ∀ xs ys, List.Pairwise (fun a b => ltb b a = false) xs →
      List.Pairwise (fun a b => ltb b a = false) ys →
      (∀ z, List.count z xs ≤ List.count z ys) → consumeAll xs ys = true := by
  intro xs
  induction xs with
  | nil => intro ys _ _ _; rfl
  | cons x xs ih =>
    intro ys hxs hys hcnt
    have hmem : x ∈ ys := by
      have h1 := hcnt x
      simp [List.count_cons] at h1
      have h2 : 0 < List.count x ys := by omega
      exact List.count_pos_iff.mp h2
    obtain ⟨rest, hdrop⟩ := dropUntil_of_mem x ys hmem
    obtain ⟨pre, hpre, hnp⟩ := dropUntil_some x ys rest hdrop
    rcases List.pairwise_cons.mp hxs with ⟨hx_rest, hxs'⟩
    -- elements of pre are strictly below x, elements of xs are not
    have hpre_x : ∀ p ∈ pre, ltb x p = false := by
      intro p hp
      have : ∀ b ∈ x :: rest, ltb b p = false := by
        rw [hpre] at hys
        have := (List.pairwise_append.mp hys).2.2
        exact fun b hb => this p hp b hb
      exact this x (by simp)
    have hcnt' : ∀ z, List.count z xs ≤ List.count z rest := by
      intro z
      rcases Nat.eq_zero_or_pos (List.count z xs) with h0 | h0
      · omega
      · have hzmem : z ∈ xs := List.count_pos_iff.mp h0
        have hz_not_lt : ltb z x = false := hx_rest z hzmem
        have hz_pre : z ∉ pre := by
          intro hzp
          have h1 : ltb x z = false := hpre_x z hzp
          have : z = x := hsto.eq_of_not_lt hz_not_lt h1
          exact hnp z hzp this
        have hz_pre_cnt : List.count z pre = 0 := List.count_eq_zero.mpr hz_pre
        have := hcnt z
        rw [hpre, List.count_append, List.count_cons, List.count_cons] at this
        omega
    have hrest_pw : List.Pairwise (fun a b => ltb b a = false) rest := by
      rw [hpre] at hys
      have h1 := (List.pairwise_append.mp hys).2.1
      exact (List.pairwise_cons.mp h1).2
    have hres := ih rest hxs' hrest_pw hcnt'
    simp only [consumeAll]
    rw [hdrop]
    exact hres

end Prioq

namespace Prioq

/-! ### list.remove -/

theorem listRemoveE_not_mem (l : List Int) (v : Int) (h : v ∉ l) :
    listRemoveE l v = .error .valueError := by
  induction l with
  | nil => rfl
  | cons x xs ih =>
    have hx : ¬ x = v := by
      intro e
      exact h (by rw [e]; simp)
    simp only [listRemoveE, if_neg hx]
    rw [ih (fun hm => h (List.mem_cons_of_mem x hm))]

theorem listRemoveE_mem (l : List Int) (v : Int) (h : v ∈ l) :
    ∃ l2, listRemoveE l v = .ok l2 ∧ l2.length + 1 = l.length
      ∧ (∀ y, List.count y l = List.count y l2 + (if y = v then 1 else 0)) := by
  induction l with
  | nil => simp at h
  | cons x xs ih =>
    by_cases hx : x = v
    · refine ⟨xs, by simp [listRemoveE, hx], by simp, ?_⟩
      intro y
      by_cases hy : y = v <;> simp [List.count_cons, hx, hy]
    · have hm : v ∈ xs := by
        rcases List.mem_cons.mp h with h2 | h2
        · exact absurd h2.symm hx
        · exact h2
      obtain ⟨l2, he, hlen, hcnt⟩ := ih hm
      refine ⟨x :: l2, by simp [listRemoveE, hx, he], by simpa using hlen, ?_⟩
      intro y
      have := hcnt y
      simp only [List.count_cons]
      omega

/-! ### Queue operation correctness -/

theorem mkQueue_correct (key : Option (Int → Int)) (rev : Bool) (vals : List Int) :
    IsHeap (itemLt key rev) (mkQueue key rev vals).items
      ∧ (mkQueue key rev vals).items.length = vals.length
      ∧ (∀ y, List.count y (mkQueue key rev vals).items = List.count y vals) := by
  exact heapify_correct (itemLt key rev) (itemLt_sto key rev) vals

theorem PQ.add_correct (q : PQ) (v : Int) (h : IsHeap q.olt q.items) :
    IsHeap q.olt (q.add v).items
      ∧ (q.add v).items.length = q.items.length + 1
      ∧ (∀ y, List.count y (q.add v).items = List.count y (q.items ++ [v])) := by
  exact heappush_correct q.olt (itemLt_sto q.key q.reverse) q.items v h

theorem PQ.popSt_empty (q : PQ) (h : q.items = []) :
    q.popSt = (.error (.keyError none), q) := by
  simp [PQ.popSt, heappopE, heappop, h]

theorem PQ.popSt_nonempty (q : PQ) (hh : IsHeap q.olt q.items) (hne : q.items ≠ []) :
    ∃ q2, q.popSt = (.ok (nth q.items 0), q2) ∧ q2.key = q.key ∧ q2.reverse = q.reverse
      ∧ IsHeap q.olt q2.items ∧ q2.items.length = q.items.length - 1
      ∧ (∀ y, List.count y q.items
          = List.count y q2.items + (if nth q.items 0 = y then 1 else 0)) := by
  obtain ⟨h2, heq, hisheap, hlen, hcnt⟩ :=
    heappop_correct q.olt (itemLt_sto q.key q.reverse) q.items hh hne
  refine ⟨{ q with items := h2 }, ?_, rfl, rfl, hisheap, hlen, hcnt⟩
  simp [PQ.popSt, heappopE, heq]

theorem PQ.removeSt_not_mem (q : PQ) (v : Int) (h : v ∉ q.items) :
    q.removeSt v = (.error (.keyError (some v)), q) := by
  simp [PQ.removeSt, listRemoveE_not_mem q.items v h]

theorem PQ.removeSt_mem (q : PQ) (v : Int) (h : v ∈ q.items) :
    ∃ q2, q.removeSt v = (.ok (), q2) ∧ q2.key = q.key ∧ q2.reverse = q.reverse
      ∧ IsHeap q.olt q2.items ∧ q2.items.length + 1 = q.items.length
      ∧ (∀ y, List.count y q.items
          = List.count y q2.items + (if y = v then 1 else 0)) := by
  obtain ⟨l2, he, hlen, hcnt⟩ := listRemoveE_mem q.items v h
  obtain ⟨hh2, hlen2, hcnt2⟩ :=
    heapify_correct q.olt (itemLt_sto q.key q.reverse) l2
  refine ⟨{ q with items := heapify q.olt l2 }, ?_, rfl, rfl, hh2, ?_, ?_⟩
  · simp [PQ.removeSt, he]
  · rw [hlen2]
    exact hlen
  · intro y
    rw [hcnt2 y]
    exact hcnt y

theorem PQ.discard_eq (q : PQ) (v : Int) : q.discard v = (q.removeSt v).2 := by
  rcases hr : q.removeSt v with ⟨e, q2⟩
  rcases e with e | _
  · rcases e with e | e | e <;> simp [PQ.discard, hr]
  · simp [PQ.discard, hr]

theorem PQ.clear_correct (q : PQ) : IsHeap q.olt (q.clear).items := by
  intro c hc0 hclen
  simp [PQ.clear] at hclen

/-- Every call preserves the key, the reverse flag and the heap invariant
(failing calls leave the state as the method left it). -/
theorem PQ.applyOp_correct (q : PQ) (op : Op) (h : IsHeap q.olt q.items) :
    (q.applyOp op).key = q.key ∧ (q.applyOp op).reverse = q.reverse
      ∧ IsHeap (q.applyOp op).olt (q.applyOp op).items := by
  cases op with
  | add v =>
    exact ⟨rfl, rfl, (PQ.add_correct q v h).1⟩
  | remove v =>
    by_cases hv : v ∈ q.items
    · obtain ⟨q2, he, hk, hr, hh2, _, _⟩ := PQ.removeSt_mem q v hv
      have : q.applyOp (Op.remove v) = q2 := by simp [PQ.applyOp, he]
      rw [this]
      refine ⟨hk, hr, ?_⟩
      have holt : q2.olt = q.olt := by
        show itemLt q2.key q2.reverse = itemLt q.key q.reverse
        rw [hk, hr]
      rw [holt]
      exact hh2
    · have he := PQ.removeSt_not_mem q v hv
      have : q.applyOp (Op.remove v) = q := by simp [PQ.applyOp, he]
      rw [this]
      exact ⟨rfl, rfl, h⟩
  | discard v =>
    have hd : q.applyOp (Op.discard v) = (q.removeSt v).2 := by
      simp [PQ.applyOp, PQ.discard_eq]
    rw [hd]
    by_cases hv : v ∈ q.items
    · obtain ⟨q2, he, hk, hr, hh2, _, _⟩ := PQ.removeSt_mem q v hv
      rw [he]
      refine ⟨hk, hr, ?_⟩
      have holt : q2.olt = q.olt := by
        show itemLt q2.key q2.reverse = itemLt q.key q.reverse
        rw [hk, hr]
      rw [holt]
      exact hh2
    · rw [PQ.removeSt_not_mem q v hv]
      exact ⟨rfl, rfl, h⟩
  | pop =>
    by_cases hv : q.items = []
    · have := PQ.popSt_empty q hv
      have h2 : q.applyOp Op.pop = q := by simp [PQ.applyOp, this]
      rw [h2]
      exact ⟨rfl, rfl, h⟩
    · obtain ⟨q2, he, hk, hr, hh2, _, _⟩ := PQ.popSt_nonempty q h hv
      have h2 : q.applyOp Op.pop = q2 := by simp [PQ.applyOp, he]
      rw [h2]
      refine ⟨hk, hr, ?_⟩
      have holt : q2.olt = q.olt := by
        show itemLt q2.key q2.reverse = itemLt q.key q.reverse
        rw [hk, hr]
      rw [holt]
      exact hh2
  | clear =>
    exact ⟨rfl, rfl, PQ.clear_correct q⟩

/-- Running any call sequence preserves the configuration and the heap
invariant. -/
theorem PQ.runOps_correct (ops : List Op) :
    ∀ q : PQ, IsHeap q.olt q.items →
      (q.runOps ops).key = q.key ∧ (q.runOps ops).reverse = q.reverse
        ∧ IsHeap (q.runOps ops).olt (q.runOps ops).items := by
  induction ops with
  | nil => intro q h; exact ⟨rfl, rfl, h⟩
  | cons op ops ih =>
    intro q h
    obtain ⟨hk, hr, hh⟩ := PQ.applyOp_correct q op h
    obtain ⟨hk2, hr2, hh2⟩ := ih (q.applyOp op) hh
    have hrun : q.runOps (op :: ops) = (q.applyOp op).runOps ops := rfl
    rw [hrun]
    exact ⟨by rw [hk2, hk], by rw [hr2, hr], hh2⟩

end Prioq

namespace Prioq

theorem PQ.peekE_nonempty (q : PQ) (hne : q.items ≠ []) :
    q.peekE = .ok (nth q.items 0) := by
  cases hq : q.items with
  | nil => exact absurd hq hne
  | cons x t =>
    simp [PQ.peekE, headE, hq, nth_cons_zero]

/-- In a queue satisfying the heap invariant the root value is contained and
its priority key is not greater than that of any contained value. -/
theorem PQ.root_min (q : PQ) (hh : IsHeap q.olt q.items) (hne : q.items ≠ []) :
    nth q.items 0 ∈ q.items
      ∧ ∀ w ∈ q.items, keyLt q.key q.reverse w (nth q.items 0) = false := by
  have hlen : 0 < q.items.length := List.length_pos.mpr hne
  constructor
  · exact mem_of_nth q.items 0 hlen
  · intro w hw
    obtain ⟨j, hj, hw2⟩ := exists_nth_of_mem q.items w hw
    have hmin := isHeap_root_min q.olt (itemLt_sto q.key q.reverse) q.items hh j hj
    rw [hw2] at hmin
    cases hk : keyLt q.key q.reverse w (nth q.items 0) with
    | false => rfl
    | true =>
      have h3 : q.olt w (nth q.items 0) = true :=
        keyLt_imp_itemLt q.key q.reverse w (nth q.items 0) hk
      rw [h3] at hmin
      exact hmin

/-- PriorityQueue.__le__ decides multiset inclusion whenever the two queues
share the same key and reverse configuration. -/
theorem le_iff_multiset (A B : PQ) (hk : A.key = B.key) (hr : A.reverse = B.reverse) :
    PQ.le A B = true ↔ (A.items : Multiset Int) ≤ (B.items : Multiset Int) := by
  have holt : B.olt = A.olt := by
    show itemLt B.key B.reverse = itemLt A.key A.reverse
    rw [hk, hr]
  have hsto := itemLt_sto A.key A.reverse
  have hpwA : List.Pairwise (fun a b => A.olt b a = false) (sortedVals A) :=
    stableSortBy_pairwise A.olt hsto A.items
  have hpwB : List.Pairwise (fun a b => A.olt b a = false) (sortedVals B) := by
    show List.Pairwise (fun a b => A.olt b a = false) (stableSortBy B.olt B.items)
    rw [holt]
    exact stableSortBy_pairwise A.olt hsto B.items
  constructor
  · intro hle
    simp only [PQ.le] at hle
    by_cases hlen : B.items.length < A.items.length
    · rw [if_pos hlen] at hle
      exact Bool.noConfusion hle
    · rw [if_neg hlen] at hle
      rw [Multiset.le_iff_count]
      intro z
      have := consumeAll_sound (sortedVals A) (sortedVals B) hle z
      simp only [sortedVals] at this
      rw [stableSortBy_count, stableSortBy_count] at this
      simpa using this
  · intro hm
    have hlen : A.items.length ≤ B.items.length := by
      have := Multiset.card_le_card hm
      simpa using this
    simp only [PQ.le]
    rw [if_neg (by omega)]
    apply consumeAll_complete A.olt hsto (sortedVals A) (sortedVals B) hpwA hpwB
    intro z
    simp only [sortedVals]
    rw [stableSortBy_count, stableSortBy_count]
    have := Multiset.le_iff_count.mp hm z
    simpa using this

/-! ### Sub-multiset facts about the merge scans -/

theorem intersectNoneF_count_left (rev : Bool) :
    ∀ fuel xs ys y, List.count y (intersectNoneF rev fuel xs ys) ≤ List.count y xs := by
  intro fuel
  induction fuel with
  | zero => intro xs ys y; simp [intersectNoneF]
  | succ n ih =>
    intro xs ys y
    cases xs with
    | nil => simp [intersectNoneF]
    | cons a as2 =>
      cases ys with
      | nil => simp [intersectNoneF]
      | cons b bs =>
        simp only [intersectNoneF]
        by_cases h1 : (if rev then decide (b < a) else decide (a < b)) = true
        · rw [if_pos h1]
          have := ih as2 (b :: bs) y
          rw [List.count_cons]
          omega
        · rw [if_neg h1]
          by_cases h2 : (if rev then decide (a < b) else decide (b < a)) = true
          · rw [if_pos h2]
            exact ih (a :: as2) bs y
          · rw [if_neg h2]
            have := ih as2 bs y
            rw [List.count_cons, List.count_cons]
            omega

theorem intersectNone_count_left (rev : Bool) (xs ys : List Int) (y : Int) :
    List.count y (intersectNone rev xs ys) ≤ List.count y xs :=
  intersectNoneF_count_left rev (xs.length + ys.length) xs ys y

theorem intersectNoneF_count_right (rev : Bool) :
    ∀ fuel xs ys y, List.count y (intersectNoneF rev fuel xs ys) ≤ List.count y ys := by
  intro fuel
  induction fuel with
  | zero => intro xs ys y; simp [intersectNoneF]
  | succ n ih =>
    intro xs ys y
    cases xs with
    | nil => simp [intersectNoneF]
    | cons a as2 =>
      cases ys with
      | nil => simp [intersectNoneF]
      | cons b bs =>
        simp only [intersectNoneF]
        by_cases h1 : (if rev then decide (b < a) else decide (a < b)) = true
        · rw [if_pos h1]
          exact ih as2 (b :: bs) y
        · rw [if_neg h1]
          by_cases h2 : (if rev then decide (a < b) else decide (b < a)) = true
          · rw [if_pos h2]
            have := ih (a :: as2) bs y
            rw [List.count_cons]
            omega
          · rw [if_neg h2]
            have hab : a = b := by
              cases rev <;> simp [decide_eq_true_eq] at h1 h2 <;> omega
            have := ih as2 bs y
            rw [List.count_cons, List.count_cons, hab]
            omega

theorem intersectNone_count_right (rev : Bool) (xs ys : List Int) (y : Int) :
    List.count y (intersectNone rev xs ys) ≤ List.count y ys :=
  intersectNoneF_count_right rev (xs.length + ys.length) xs ys y

theorem intersectKeyF_count_left (f : Int → Int) (rev : Bool) :
    ∀ fuel xs ys y, List.count y (intersectKeyF f rev fuel xs ys) ≤ List.count y xs := by
  intro fuel
  induction fuel with
  | zero => intro xs ys y; simp [intersectKeyF]
  | succ n ih =>
    intro xs ys y
    cases xs with
    | nil => simp [intersectKeyF]
    | cons a as2 =>
      cases ys with
      | nil => simp [intersectKeyF]
      | cons b bs =>
        simp only [intersectKeyF]
        by_cases h1 : (if rev then decide (f b < f a) else decide (f a < f b)) = true
        · rw [if_pos h1]
          have := ih as2 (b :: bs) y
          rw [List.count_cons]
          omega
        · rw [if_neg h1]
          by_cases h2 : (if rev then decide (f a < f b) else decide (f b < f a)) = true
          · rw [if_pos h2]
            exact ih (a :: as2) bs y
          · rw [if_neg h2]
            have := ih as2 bs y
            rw [List.count_cons, List.count_cons]
            omega

theorem intersectKey_count_left (f : Int → Int) (rev : Bool) (xs ys : List Int) (y : Int) :
    List.count y (intersectKey f rev xs ys) ≤ List.count y xs :=
  intersectKeyF_count_left f rev (xs.length + ys.length) xs ys y

/-! ### Success of the fallible push -/

theorem pyValEq_self (v : PyVal) : pyValEq v v = true := by
  cases v <;> simp [pyValEq]

theorem itemLtE_self_ok (x : Int × PyVal) : itemLtE x x = .ok false := by
  simp [itemLtE, pyValEq_self]

theorem siftdownAuxE_ok (s : Nat) (ni : Int × PyVal) :
    ∀ fuel (h : List (Int × PyVal)) pos, pos < h.length →
      (∀ y ∈ h, ∃ b, itemLtE ni y = .ok b) →
      ∃ l, siftdownAuxE s ni fuel h pos = .ok l := by
  intro fuel
  induction fuel with
  | zero => intro h pos _ _; exact ⟨h.set pos ni, rfl⟩
  | succ fuel ih =>
    intro h pos hlen hcomp
    simp only [siftdownAuxE]
    by_cases hsp : s < pos
    · rw [if_pos hsp]
      have hpp : (pos - 1) / 2 < h.length := by omega
      obtain ⟨b, hb⟩ := hcomp (nth h ((pos - 1) / 2)) (mem_of_nth h _ hpp)
      rw [hb]
      cases b with
      | false => exact ⟨h.set pos ni, rfl⟩
      | true =>
        apply ih
        · rw [List.length_set]; omega
        · intro y hy
          rcases List.mem_or_eq_of_mem_set hy with hy | hy
          · exact hcomp y hy
          · rw [hy]
            exact hcomp _ (mem_of_nth h _ hpp)
    · rw [if_neg hsp]
      exact ⟨h.set pos ni, rfl⟩

theorem heappushE_ok (items : List (Int × PyVal)) (x : Int × PyVal)
    (hcomp : ∀ y ∈ items, ∃ b, itemLtE x y = .ok b) :
    ∃ l, heappushE items x = .ok l := by
  apply siftdownAuxE_ok 0 x items.length (items ++ [x]) items.length (by simp)
  intro y hy
  rcases List.mem_append.mp hy with hy | hy
  · exact hcomp y hy
  · rw [List.mem_singleton.mp hy]
    exact ⟨false, itemLtE_self_ok x⟩

end Prioq

namespace Prioq

/-! ### Remaining helper lemmas for the set operators -/

theorem and_count_le_left (sk : Bool) (A B : PQ) (z : Int) :
    List.count z (PQ.and_ sk A B).items ≤ List.count z A.items := by
  have hsorted : List.count z (sortedVals A) = List.count z A.items := by
    simp only [sortedVals]
    rw [stableSortBy_count]
  rcases hA : A.key with _ | f
  · have heq : PQ.and_ sk A B
        = mkQueue A.key A.reverse (intersectNone A.reverse (sortedVals A)
            (otherSorted sk A B)) := by
      simp only [PQ.and_, hA]
    rw [heq]
    rw [(mkQueue_correct A.key A.reverse _).2.2 z]
    calc List.count z (intersectNone A.reverse (sortedVals A) (otherSorted sk A B))
        ≤ List.count z (sortedVals A) :=
          intersectNone_count_left A.reverse (sortedVals A) (otherSorted sk A B) z
      _ = List.count z A.items := hsorted
  · have heq : PQ.and_ sk A B
        = mkQueue A.key A.reverse (intersectKey f A.reverse (sortedVals A)
            (otherSorted sk A B)) := by
      simp only [PQ.and_, hA]
    rw [heq]
    rw [(mkQueue_correct A.key A.reverse _).2.2 z]
    calc List.count z (intersectKey f A.reverse (sortedVals A) (otherSorted sk A B))
        ≤ List.count z (sortedVals A) :=
          intersectKey_count_left f A.reverse (sortedVals A) (otherSorted sk A B) z
      _ = List.count z A.items := hsorted

theorem and_count_le_right (A B : PQ) (hA : A.key = none) (hr : A.reverse = B.reverse)
    (z : Int) : List.count z (PQ.and_ true A B).items ≤ List.count z B.items := by
  have hother : otherSorted true A B = sortedVals B := by
    simp [otherSorted, hr]
  have heq : PQ.and_ true A B
      = mkQueue A.key A.reverse (intersectNone A.reverse (sortedVals A) (sortedVals B)) := by
    simp only [PQ.and_, hA, hother]
  rw [heq]
  rw [(mkQueue_correct A.key A.reverse _).2.2 z]
  calc List.count z (intersectNone A.reverse (sortedVals A) (sortedVals B))
      ≤ List.count z (sortedVals B) :=
        intersectNone_count_right A.reverse (sortedVals A) (sortedVals B) z
    _ = List.count z B.items := by
        simp only [sortedVals]
        rw [stableSortBy_count]

theorem xor_both_nonempty (sk : Bool) (A B : PQ) (hA : A.items ≠ []) (hB : B.items ≠ []) :
    PQ.xor_ sk A B = PQ.or_ (PQ.sub_ sk A B) (PQ.sub_ sk B A) := by
  have h1 : A.items.isEmpty = false := by
    cases hA2 : A.items with
    | nil => exact absurd hA2 hA
    | cons x t => rfl
  have h2 : B.items.isEmpty = false := by
    cases hB2 : B.items with
    | nil => exact absurd hB2 hB
    | cons x t => rfl
  simp [PQ.xor_, h1, h2]

theorem xor_left_empty (sk : Bool) (A B : PQ) (hA : A.items = []) :
    PQ.xor_ sk A B = B := by
  have h1 : A.items.isEmpty = true := by rw [hA]; rfl
  simp [PQ.xor_, h1]

theorem xor_right_empty (sk : Bool) (A B : PQ) (hA : A.items ≠ []) (hB : B.items = []) :
    PQ.xor_ sk A B = A := by
  have h1 : A.items.isEmpty = false := by
    cases hA2 : A.items with
    | nil => exact absurd hA2 hA
    | cons x t => rfl
  have h2 : B.items.isEmpty = true := by rw [hB]; rfl
  simp [PQ.xor_, h1, h2]

/-! ### The claims -/

/-- C1: for every queue (any key, any reverse flag) and every sequence of
add/remove/discard/pop/clear calls leaving the queue non-empty, peek()
returns a contained value whose priority key is not greater (under the
queue's (key, reverse) ordering) than the priority key of every other
contained value. -/
theorem claim_C1 (key : Option (Int → Int)) (rev : Bool) (vals : List Int) (ops : List Op)
    (hne : ((mkQueue key rev vals).runOps ops).items ≠ []) :
    ∃ v, ((mkQueue key rev vals).runOps ops).peekE = .ok v
      ∧ v ∈ ((mkQueue key rev vals).runOps ops).items
      ∧ ∀ w ∈ ((mkQueue key rev vals).runOps ops).items, keyLt key rev w v = false := by
  obtain ⟨hk, hr, hh⟩ :=
    PQ.runOps_correct ops (mkQueue key rev vals) (mkQueue_correct key rev vals).1
  obtain ⟨hmem, hmin⟩ := PQ.root_min _ hh hne
  refine ⟨nth ((mkQueue key rev vals).runOps ops).items 0,
    PQ.peekE_nonempty _ hne, hmem, ?_⟩
  intro w hw
  have hthis := hmin w hw
  rw [hk, hr] at hthis
  exact hthis

theorem claim_C1_witness :
    ((mkQueue none false [5, 3]).runOps
      [Op.add 1, Op.pop, Op.discard 3, Op.add 4]).items ≠ []
    ∧ ∃ v, ((mkQueue none false [5, 3]).runOps
          [Op.add 1, Op.pop, Op.discard 3, Op.add 4]).peekE = .ok v
        ∧ v ∈ ((mkQueue none false [5, 3]).runOps
            [Op.add 1, Op.pop, Op.discard 3, Op.add 4]).items
        ∧ ∀ w ∈ ((mkQueue none false [5, 3]).runOps
            [Op.add 1, Op.pop, Op.discard 3, Op.add 4]).items,
            keyLt none false w v = false :=
  ⟨by decide, claim_C1 none false [5, 3] [Op.add 1, Op.pop, Op.discard 3, Op.add 4]
    (by decide)⟩

/-- C2: pop() on a non-empty queue returns a minimal value under the
queue's (key, reverse) ordering and decreases length() by exactly 1;
remove(value) of a present value decreases length() by exactly 1; the queue
built from 5,3,8,1 pops 1 then 3 leaving length 2, and with reverse=true
pops 8 first. -/
theorem claim_C2 :
    (∀ q : PQ, IsHeap q.olt q.items → q.items ≠ [] →
      ∃ v q2, q.popSt = (.ok v, q2) ∧ v ∈ q.items
        ∧ (∀ w ∈ q.items, keyLt q.key q.reverse w v = false)
        ∧ q2.items.length + 1 = q.items.length)
    ∧ (∀ (q : PQ) (v : Int), v ∈ q.items →
        ∃ q2, q.removeSt v = (.ok (), q2) ∧ q2.items.length + 1 = q.items.length)
    ∧ ((mkQueue none false [5, 3, 8, 1]).popSt).1 = .ok 1
    ∧ (((mkQueue none false [5, 3, 8, 1]).popSt).2.popSt).1 = .ok 3
    ∧ (((mkQueue none false [5, 3, 8, 1]).popSt).2.popSt).2.items.length = 2
    ∧ ((mkQueue none true [5, 3, 8, 1]).popSt).1 = .ok 8 := by
  refine ⟨?_, ?_, rfl, rfl, rfl, rfl⟩
  · intro q hh hne
    obtain ⟨q2, he, _, _, _, hlen, _⟩ := PQ.popSt_nonempty q hh hne
    obtain ⟨hmem, hmin⟩ := PQ.root_min q hh hne
    have hpos : 0 < q.items.length := List.length_pos.mpr hne
    exact ⟨nth q.items 0, q2, he, hmem, hmin, by omega⟩
  · intro q v hv
    obtain ⟨q2, he, _, _, _, hlen, _⟩ := PQ.removeSt_mem q v hv
    exact ⟨q2, he, hlen⟩

theorem claim_C2_witness :
    IsHeap (mkQueue none false [2, 1]).olt (mkQueue none false [2, 1]).items
    ∧ (∃ v q2, (mkQueue none false [2, 1]).popSt = (.ok v, q2)
        ∧ v ∈ (mkQueue none false [2, 1]).items
        ∧ (∀ w ∈ (mkQueue none false [2, 1]).items, keyLt none false w v = false)
        ∧ q2.items.length + 1 = (mkQueue none false [2, 1]).items.length)
    ∧ (∃ q2, (mkQueue none false [2, 1]).removeSt 2 = (.ok (), q2)
        ∧ q2.items.length + 1 = (mkQueue none false [2, 1]).items.length) :=
  ⟨(mkQueue_correct none false [2, 1]).1,
   claim_C2.1 (mkQueue none false [2, 1]) (mkQueue_correct none false [2, 1]).1 (by decide),
   claim_C2.2.1 (mkQueue none false [2, 1]) 2 (by decide)⟩

/-- C3: on an empty queue peek() and pop() each raise the empty-queue error
(a bare KeyError, consistently the same for both), and the failing call
leaves the queue state unchanged: pop returns the state it was given (the
internal list.pop raises before mutating) and peek performs no assignment
at all. -/
theorem claim_C3 (q : PQ) (h : q.items = []) :
    q.peekE = .error (.keyError none) ∧ q.popSt = (.error (.keyError none), q) := by
  refine ⟨?_, PQ.popSt_empty q h⟩
  simp [PQ.peekE, headE, h]

theorem claim_C3_witness :
    (mkQueue none false []).peekE = .error (.keyError none)
    ∧ (mkQueue none false []).popSt = (.error (.keyError none), mkQueue none false []) :=
  claim_C3 (mkQueue none false []) (by decide)

/-- C4: remove(v) of an absent value raises KeyError(v) and leaves the
queue unchanged, while discard(v) suppresses that error (discard is a total
function that never lets the KeyError escape) and is a no-op. -/
theorem claim_C4 (q : PQ) (v : Int) (h : v ∉ q.items) :
    q.removeSt v = (.error (.keyError (some v)), q) ∧ q.discard v = q := by
  refine ⟨PQ.removeSt_not_mem q v h, ?_⟩
  rw [PQ.discard_eq, PQ.removeSt_not_mem q v h]

theorem claim_C4_witness :
    (mkQueue none false [1]).removeSt 2
        = (.error (.keyError (some 2)), mkQueue none false [1])
    ∧ (mkQueue none false [1]).discard 2 = mkQueue none false [1] :=
  claim_C4 (mkQueue none false [1]) 2 (by decide)

/-- C5 counterexample: two queues holding the same values 0 and 1 (so the
left one is a multiset subset of the right one) with differing reverse
flags; the consuming scan of le iterates them in opposite orders and
returns False, refuting the claim that le decides multiset inclusion for
every pair of queues including pairs whose reverse flags differ. -/
theorem claim_C5_counterexample :
    PQ.le (mkQueue none false [0, 1]) (mkQueue none true [0, 1]) = false
    ∧ ((mkQueue none false [0, 1]).items : Multiset Int)
        ≤ ((mkQueue none true [0, 1]).items : Multiset Int) := by
  constructor
  · decide
  · have h1 : (mkQueue none false [0, 1]).items = [0, 1] := by decide
    have h2 : (mkQueue none true [0, 1]).items = [1, 0] := by decide
    rw [h1, h2]
    exact le_of_eq (Multiset.coe_eq_coe.mpr (List.Perm.swap 1 0 []))

/-- C5 amended: for queues with the SAME key function and the SAME reverse
flag, A <= B returns true if and only if every value of A appears in B
counted with multiplicity (multiset inclusion). -/
theorem claim_C5_amended (A B : PQ) (hk : A.key = B.key) (hr : A.reverse = B.reverse) :
    PQ.le A B = true ↔ (A.items : Multiset Int) ≤ (B.items : Multiset Int) :=
  le_iff_multiset A B hk hr

theorem claim_C5_amended_witness :
    (mkQueue none false [1]).key = (mkQueue none false [1, 2]).key
    ∧ (mkQueue none false [1]).reverse = (mkQueue none false [1, 2]).reverse
    ∧ (PQ.le (mkQueue none false [1]) (mkQueue none false [1, 2]) = true
        ↔ ((mkQueue none false [1]).items : Multiset Int)
            ≤ ((mkQueue none false [1, 2]).items : Multiset Int)) :=
  ⟨rfl, rfl, claim_C5_amended (mkQueue none false [1]) (mkQueue none false [1, 2]) rfl rfl⟩

/-- C6 counterexample: with the same key function (constant 0) on both
sides, the intersection matches by key equivalence only and emits the left
value 1, which is not contained in the right queue holding 2, so
(A & B) <= B is false, refuting the claim that both subset laws hold for
every pair. -/
theorem claim_C6_counterexample :
    PQ.le (PQ.and_ true (mkQueue (some (fun _ => 0)) false [1])
        (mkQueue (some (fun _ => 0)) false [2]))
      (mkQueue (some (fun _ => 0)) false [2]) = false := by
  decide

/-- C6 amended: (A & B) <= A holds for every pair of queues (and either
branch of the key-identity test); (A & B) <= B additionally holds when both
queues use no key function (value-based matching) and their reverse flags
agree (so both queues are necessarily in the identical-key branch). -/
theorem claim_C6_amended :
    (∀ (sameKey : Bool) (A B : PQ), PQ.le (PQ.and_ sameKey A B) A = true)
    ∧ (∀ A B : PQ, A.key = none → B.key = none → A.reverse = B.reverse →
        PQ.le (PQ.and_ true A B) B = true) := by
  constructor
  · intro sk A B
    rw [le_iff_multiset (PQ.and_ sk A B) A rfl rfl, Multiset.le_iff_count]
    intro z
    have := and_count_le_left sk A B z
    simpa using this
  · intro A B hA hB hr
    rw [le_iff_multiset (PQ.and_ true A B) B (by show A.key = B.key; rw [hA, hB]) hr,
      Multiset.le_iff_count]
    intro z
    have := and_count_le_right A B hA hr z
    simpa using this

theorem claim_C6_amended_witness :
    PQ.le (PQ.and_ true (mkQueue none false [1, 2]) (mkQueue none false [2, 3]))
        (mkQueue none false [1, 2]) = true
    ∧ PQ.le (PQ.and_ true (mkQueue none false [1, 2]) (mkQueue none false [2, 3]))
        (mkQueue none false [2, 3]) = true :=
  ⟨claim_C6_amended.1 true (mkQueue none false [1, 2]) (mkQueue none false [2, 3]),
   claim_C6_amended.2 (mkQueue none false [1, 2]) (mkQueue none false [2, 3]) rfl rfl rfl⟩

end Prioq

namespace Prioq

/-- C7 counterexample: with an empty left operand, __xor__ returns the
right operand queue itself, so the result carries the RIGHT operand's
reverse flag, refuting the claim that every binary set operator returns a
new queue configured like the left operand. -/
theorem claim_C7_counterexample :
    (PQ.xor_ true (mkQueue none false []) (mkQueue none true [1])).reverse
      ≠ (mkQueue none false []).reverse := by
  decide

/-- C7 amended: the operators &, | and - always build a new queue carrying
the left operand's key and reverse; ^ does so when both operands are
non-empty, but returns the right operand object itself when the left is
empty and the left operand itself when only the right is empty (so in
those cases the result is that operand, with its configuration). -/
theorem claim_C7_amended :
    (∀ (sk : Bool) (A B : PQ),
      (PQ.and_ sk A B).key = A.key ∧ (PQ.and_ sk A B).reverse = A.reverse
        ∧ (PQ.or_ A B).key = A.key ∧ (PQ.or_ A B).reverse = A.reverse
        ∧ (PQ.sub_ sk A B).key = A.key ∧ (PQ.sub_ sk A B).reverse = A.reverse)
    ∧ (∀ (sk : Bool) (A B : PQ), A.items ≠ [] → B.items ≠ [] →
        (PQ.xor_ sk A B).key = A.key ∧ (PQ.xor_ sk A B).reverse = A.reverse)
    ∧ (∀ (sk : Bool) (A B : PQ), A.items = [] → PQ.xor_ sk A B = B)
    ∧ (∀ (sk : Bool) (A B : PQ), A.items ≠ [] → B.items = [] → PQ.xor_ sk A B = A) := by
  refine ⟨?_, ?_, ?_, ?_⟩
  · intro sk A B
    exact ⟨rfl, rfl, rfl, rfl, rfl, rfl⟩
  · intro sk A B hA hB
    rw [xor_both_nonempty sk A B hA hB]
    exact ⟨rfl, rfl⟩
  · intro sk A B hA
    exact xor_left_empty sk A B hA
  · intro sk A B hA hB
    exact xor_right_empty sk A B hA hB

theorem claim_C7_amended_witness :
    ((PQ.and_ true (mkQueue none false [1]) (mkQueue none true [2])).key
        = (mkQueue none false [1]).key
      ∧ (PQ.and_ true (mkQueue none false [1]) (mkQueue none true [2])).reverse
        = (mkQueue none false [1]).reverse
      ∧ (PQ.or_ (mkQueue none false [1]) (mkQueue none true [2])).key
        = (mkQueue none false [1]).key
      ∧ (PQ.or_ (mkQueue none false [1]) (mkQueue none true [2])).reverse
        = (mkQueue none false [1]).reverse
      ∧ (PQ.sub_ true (mkQueue none false [1]) (mkQueue none true [2])).key
        = (mkQueue none false [1]).key
      ∧ (PQ.sub_ true (mkQueue none false [1]) (mkQueue none true [2])).reverse
        = (mkQueue none false [1]).reverse)
    ∧ ((PQ.xor_ true (mkQueue none false [1]) (mkQueue none true [2])).key
        = (mkQueue none false [1]).key
      ∧ (PQ.xor_ true (mkQueue none false [1]) (mkQueue none true [2])).reverse
        = (mkQueue none false [1]).reverse)
    ∧ PQ.xor_ true (mkQueue none false []) (mkQueue none true [2]) = mkQueue none true [2]
    ∧ PQ.xor_ true (mkQueue none false [1]) (mkQueue none false []) = mkQueue none false [1] :=
  ⟨claim_C7_amended.1 true (mkQueue none false [1]) (mkQueue none true [2]),
   claim_C7_amended.2.1 true (mkQueue none false [1]) (mkQueue none true [2])
     (by decide) (by decide),
   claim_C7_amended.2.2.1 true (mkQueue none false []) (mkQueue none true [2]) (by decide),
   claim_C7_amended.2.2.2 true (mkQueue none false [1]) (mkQueue none false [])
     (by decide) (by decide)⟩

/-- C8 (code-bug evidence): run A = PriorityQueue(); B = PriorityQueue(1);
A ^= B; A.add(2).  Because __xor__ with an empty left operand returns the
right operand object, __ixor__ makes A._items the very list object
B._items; the subsequent heappush through A mutates B's backing list, whose
contents become [1, 2] (length 2 instead of 1).  This contradicts the
required invariant that mutating one queue never observably mutates
another. -/
theorem claim_C8_bug :
    (pyIXorStore true [[], [1]] ⟨none, false, 0⟩ ⟨none, false, 1⟩).1.ref = 1
    ∧ (storeGet [[], [1]] 1).length = 1
    ∧ storeGet (pyAddStore (pyIXorStore true [[], [1]] ⟨none, false, 0⟩ ⟨none, false, 1⟩).2
        (pyIXorStore true [[], [1]] ⟨none, false, 0⟩ ⟨none, false, 1⟩).1 2) 1 = [1, 2] :=
  ⟨rfl, rfl, rfl⟩

/-- C9 counterexample: a keyed queue holding the int 0 under key 0; adding
the str "a", whose key is also 0, raises TypeError: heappush compares the
(key, value) tuples, the keys tie, the values differ under ==, and int vs
str is not ordered.  This refutes the claim that item comparisons during
push consult only the priority keys. -/
theorem claim_C9_counterexample :
    addE (fun _ => 0) [((0 : Int), PyVal.intv 0)] (PyVal.strv ("a"))
      = .error .typeError := rfl

/-- C9 amended: item comparisons during push consult the priority keys
first and the raw values only when the keys tie; add(value) never raises
provided the new item's comparison with every stored item is defined (in
particular whenever raw values with tying keys are mutually comparable). -/
theorem claim_C9_amended :
    (∀ (k1 k2 : Int) (v1 v2 : PyVal), k1 ≠ k2 →
      itemLtE (k1, v1) (k2, v2) = .ok (decide (k1 < k2)))
    ∧ (∀ (key : PyVal → Int) (items : List (Int × PyVal)) (v : PyVal),
        (∀ y ∈ items, ∃ b, itemLtE (key v, v) y = .ok b) →
        ∃ l, addE key items v = .ok l) := by
  constructor
  · intro k1 k2 v1 v2 hne
    simp [itemLtE, hne]
  · intro key items v hcomp
    exact heappushE_ok items (key v, v) hcomp

theorem claim_C9_amended_witness :
    ((0 : Int) ≠ (1 : Int)
      ∧ itemLtE ((0 : Int), PyVal.intv 0) ((1 : Int), PyVal.intv 5)
          = .ok (decide ((0 : Int) < 1)))
    ∧ ∃ l, addE (fun _ => 0) [((0 : Int), PyVal.intv 1)] (PyVal.intv 5) = .ok l :=
  ⟨⟨by decide, claim_C9_amended.1 0 1 (PyVal.intv 0) (PyVal.intv 5) (by decide)⟩,
   claim_C9_amended.2 (fun _ => 0) [((0 : Int), PyVal.intv 1)] (PyVal.intv 5)
     (by
       intro y hy
       rw [List.mem_singleton.mp hy]
       exact ⟨false, rfl⟩)⟩

/-- C10: the error raised by peek()/pop() on an empty queue (bare KeyError)
and the error raised by remove() of an absent value (KeyError(value)) are
of the same exception type, KeyError, so a caller cannot distinguish the
empty-queue condition from the not-found condition by exception type
alone. -/
theorem claim_C10 (q1 q2 : PQ) (v : Int) (h1 : q1.items = []) (h2 : v ∉ q2.items) :
    q1.peekE = .error (.keyError none)
    ∧ (q1.popSt).1 = .error (.keyError none)
    ∧ (q2.removeSt v).1 = .error (.keyError (some v))
    ∧ (PyError.keyError none).isKeyError = true
    ∧ (PyError.keyError (some v)).isKeyError = true := by
  refine ⟨?_, ?_, ?_, rfl, rfl⟩
  · simp [PQ.peekE, headE, h1]
  · rw [PQ.popSt_empty q1 h1]
  · rw [PQ.removeSt_not_mem q2 v h2]

theorem claim_C10_witness :
    (mkQueue none false []).peekE = .error (.keyError none)
    ∧ ((mkQueue none false []).popSt).1 = .error (.keyError none)
    ∧ ((mkQueue none false [1]).removeSt 2).1 = .error (.keyError (some 2))
    ∧ (PyError.keyError none).isKeyError = true
    ∧ (PyError.keyError (some 2)).isKeyError = true :=
  claim_C10 (mkQueue none false []) (mkQueue none false [1]) 2 (by decide) (by decide)

end Prioq
